import Mathlib

/-!
Verification of the payment-attempt lifecycle simulator and its
weighted-distribution sampling engine (scripts `insert_payments.py` and
`insert_order_items.py` of the ecommerce data generator).

The Python code is shallowly embedded: machine floats are modelled by
exact rationals, Python exceptions by `Except String` (or by `none` where
they abort an orchestration), the Mersenne-Twister generator by an
abstract source `PyRng G` of uniform draws threaded explicitly through
every sampling call.  `random.choices` (CPython ≥ 3.9) is embedded
faithfully: cumulative sums, the total-≤-0 check, and `bisect_right`
on the cumulative weights with `hi = n - 1`.
-/

set_option maxRecDepth 4000

/-- An abstract deterministic random source: `random` yields the next
uniform draw (`[0,1)` for the real generator; no range assumption is
needed by any theorem below), `randint a b` yields the next integer draw
for Python `rng.randint(a, b)`. -/
structure PyRng (G : Type) where
  random : G → ℚ × G
  randint : ℕ → ℕ → G → ℕ × G

/-- A concrete random source used to evaluate the embedding on explicit
inputs: the state is a pair of queues, one of uniform draws and one of
integer draws. -/
def listRng : PyRng (List ℚ × List ℕ) where
  random := fun g =>
    match g.1 with
    | [] => (0, ([], g.2))
    | q :: qs => (q, (qs, g.2))
  randint := fun a _ g =>
    match g.2 with
    | [] => (a, (g.1, []))
    | n :: ns => (n, (g.1, ns))

/-- Sum of a list of rationals. -/
def sumQ : List ℚ → ℚ
  | [] => 0
  | x :: xs => x + sumQ xs

/-- Cumulative sums starting from `acc`, as produced by Python
`itertools.accumulate`. -/
def cumsumFrom (acc : ℚ) : List ℚ → List ℚ
  | [] => []
  | w :: ws => (acc + w) :: cumsumFrom (acc + w) ws

/-- Cumulative sums of a weight list (`itertools.accumulate`). -/
def cumsum (ws : List ℚ) : List ℚ := cumsumFrom 0 ws

/-- Fuelled binary search, mirroring CPython `bisect.bisect_right` on a
list of rationals.  The fuel `hi - lo` passed by `bisect_right` is always
sufficient, since each step strictly shrinks the bracket. -/
def bisectGo (a : List ℚ) (x : ℚ) : ℕ → ℕ → ℕ → ℕ
  | 0, lo, _ => lo
  | fuel + 1, lo, hi =>
    if lo < hi then
      if x < a.getD ((lo + hi) / 2) 0 then bisectGo a x fuel lo ((lo + hi) / 2)
      else bisectGo a x fuel ((lo + hi) / 2 + 1) hi
    else lo

/-- CPython `bisect.bisect_right(a, x, lo, hi)`. -/
def bisect_right (a : List ℚ) (x : ℚ) (lo hi : ℕ) : ℕ :=
  bisectGo a x (hi - lo) lo hi

/-- CPython ≥ 3.9 `random.Random.choices(population, weights, k=1)`,
returning the single drawn element: length check, cumulative weights,
`IndexError` on an empty cumulative list, rejection of a non-positive
total, then `population[bisect_right(cum, random()*total, 0, n-1)]`. -/
def pyChoices {G K : Type} [Inhabited K] (R : PyRng G) (g : G)
    (population : List K) (ws : List ℚ) : Except String (K × G) :=
  if ws.length ≠ population.length then
    .error "The number of weights does not match the population"
  else
    match (cumsum ws).getLast? with
    | none => .error "IndexError: list index out of range"
    | some total =>
      if total ≤ 0 then .error "Total of weights must be greater than zero"
      else
        .ok (population.getD
          (bisect_right (cumsum ws) ((R.random g).1 * total) 0 (population.length - 1))
          default, (R.random g).2)

/-- Association-list lookup, modelling Python `dict` access on dicts
(whose keys are unique). -/
def lookupKey {K V : Type} [DecidableEq K] (m : List (K × V)) (k : K) : Option V :=
  match m with
  | [] => none
  | (k', v) :: rest => if k' = k then some v else lookupKey rest k

/-- `normalize_distribution` from `insert_payments.py`: rejects an empty
mapping, any negative weight, and a non-positive total; otherwise divides
each weight by the total, preserving insertion order. -/
def normalize_distribution {K : Type} (dist : List (K × ℚ)) :
    Except String (List (K × ℚ)) :=
  if dist.isEmpty then .error "Distribution is empty."
  else if dist.any (fun p => p.2 < 0) then
    .error "Distribution weights cannot be negative."
  else if sumQ (dist.map Prod.snd) ≤ 0 then
    .error "Distribution must have positive weights."
  else .ok (dist.map fun p => (p.1, p.2 / sumQ (dist.map Prod.snd)))

/-- `weighted_choice_key` from `insert_payments.py`: explicit rejection of
an empty mapping, then a single draw through `rng.choices` over the keys
and values of the mapping. -/
def weighted_choice_key {G K : Type} [Inhabited K] (R : PyRng G) (g : G)
    (weights : List (K × ℚ)) : Except String (K × G) :=
  if weights.isEmpty then .error "Empty weights."
  else pyChoices R g (weights.map Prod.fst) (weights.map Prod.snd)

/-! ## Configuration constants of `insert_payments.py` -/

/-- Global cap on attempts per order (`MAX_GLOBAL_ATTEMPTS`). -/
def MAX_GLOBAL_ATTEMPTS : ℕ := 4

/-- Distribution of the planned number of attempts per order
(`GLOBAL_ATTEMPT_DIST`). -/
def GLOBAL_ATTEMPT_DIST : List (ℕ × ℚ) := [(1, 45), (2, 32), (3, 18), (4, 5)]

/-- Normalised attempt-count distribution (`GLOBAL_ATTEMPT_WEIGHTS`,
computed by `normalize_distribution` at module load; the concrete table
normalises successfully). -/
def GLOBAL_ATTEMPT_WEIGHTS : List (ℕ × ℚ) :=
  match normalize_distribution GLOBAL_ATTEMPT_DIST with
  | .ok w => w
  | .error _ => []

/-- Exclusive payment window after the purchase (`PAYMENT_WINDOW_SECONDS`,
two days). -/
def PAYMENT_WINDOW_SECONDS : ℕ := 48 * 60 * 60

/-- Per-method configuration record: selection weight, per-method attempt
cap, probability of staying with the method, success rate. -/
structure MethodConfig where
  weight : ℚ
  max_attempts : ℕ
  stay_with_method_prob : ℚ
  success_rate : ℚ
deriving DecidableEq, Repr

/-- `PAYMENT_METHOD_CONFIG`, in insertion order. -/
def PAYMENT_METHOD_CONFIG : List (String × MethodConfig) :=
  [("card",          ⟨58/100, 3, 68/100, 62/100⟩),
   ("paypal",        ⟨18/100, 3, 55/100, 56/100⟩),
   ("mbway",         ⟨18/100, 3, 60/100, 50/100⟩),
   ("bank_transfer", ⟨ 6/100, 2, 35/100, 35/100⟩)]

/-- Configuration of a method, with the per-field `.get` defaults of the
source (`weight` 0.0, `max_attempts` `MAX_GLOBAL_ATTEMPTS`,
`stay_with_method_prob` 1.0, `success_rate` 0.0) for a key outside the
table; every method reaching a dict access in the source is a configured
key, so the default is never consulted there. -/
def cfgOf (m : String) : MethodConfig :=
  (lookupKey PAYMENT_METHOD_CONFIG m).getD ⟨0, MAX_GLOBAL_ATTEMPTS, 1, 0⟩

/-- `build_method_weights`: the selection weight of each configured
method, in insertion order. -/
def build_method_weights : List (String × ℚ) :=
  PAYMENT_METHOD_CONFIG.map fun p => (p.1, p.2.weight)

/-- `available_methods_by_cap`: configured methods whose per-order count
is still below `min(max_attempts, MAX_GLOBAL_ATTEMPTS)`. -/
def available_methods_by_cap (method_counts : String → ℕ) : List String :=
  (PAYMENT_METHOD_CONFIG.filter fun p =>
    method_counts p.1 < min p.2.max_attempts MAX_GLOBAL_ATTEMPTS).map Prod.fst

/-- `pick_next_method`: stay with the current method with probability
`stay_with_method_prob` unless it reached its cap; otherwise redraw by
weight among the under-cap methods other than the current one, keeping
the current one when no alternative remains. -/
def pick_next_method {G : Type} (R : PyRng G) (g : G) (current : String)
    (method_counts : String → ℕ) : Except String (String × G) :=
  if min (cfgOf current).max_attempts MAX_GLOBAL_ATTEMPTS ≤ method_counts current then
    pickSwitch R g current method_counts
  else
    if (R.random g).1 ≤ (cfgOf current).stay_with_method_prob then
      .ok (current, (R.random g).2)
    else pickSwitch R (R.random g).2 current method_counts
where
  /-- The switch branch of `pick_next_method`. -/
  pickSwitch (R : PyRng G) (g : G) (current : String)
      (method_counts : String → ℕ) : Except String (String × G) :=
    let available := (available_methods_by_cap method_counts).erase current
    if available.isEmpty then .ok (current, g)
    else weighted_choice_key R g (available.map fun m => (m, (cfgOf m).weight))

/-- Insertion into a sorted list of naturals (used to model Python
`sorted` over the set of drawn offsets). -/
def insertSorted (x : ℕ) : List ℕ → List ℕ
  | [] => [x]
  | y :: ys => if x ≤ y then x :: y :: ys else y :: insertSorted x ys

/-- Insertion sort over naturals. -/
def sortNats : List ℕ → List ℕ
  | [] => []
  | x :: xs => insertSorted x (sortNats xs)

/-- The `while len(chosen) < n` loop of `sorted_attempt_times`: keep
drawing `randint(1, maxS)` until `n` distinct values are collected.  The
source loop has no bound, so the model carries fuel; exhausted fuel is
`none` (a run of the source that never terminates). -/
def collectDistinct {G : Type} (R : PyRng G) (maxS n : ℕ) :
    ℕ → List ℕ → G → Option (List ℕ × G)
  | 0, chosen, g => if n ≤ chosen.length then some (chosen, g) else none
  | fuel + 1, chosen, g =>
    if n ≤ chosen.length then some (chosen, g)
    else
      collectDistinct R maxS n fuel
        (if (R.randint 1 maxS g).1 ∈ chosen then chosen
         else chosen ++ [(R.randint 1 maxS g).1])
        (R.randint 1 maxS g).2

/-- `sorted_attempt_times`: `n` distinct second offsets drawn from
`[1, PAYMENT_WINDOW_SECONDS - 2]`, sorted and added to the base
timestamp (timestamps are modelled as integer seconds). -/
def sorted_attempt_times {G : Type} (R : PyRng G) (g : G) (base : ℤ)
    (n_attempts : ℕ) (fuel : ℕ) : Option (List ℤ × G) :=
  if n_attempts = 0 then some ([], g)
  else
    let maxS := max 1 (PAYMENT_WINDOW_SECONDS - 2)
    let n := min n_attempts maxS
    match collectDistinct R maxS n fuel [] g with
    | none => none
    | some (chosen, g') =>
      some ((sortNats chosen).map fun s => base + (s : ℤ), g')

/-- `draw_total_attempts_planned`: one weighted draw from
`GLOBAL_ATTEMPT_WEIGHTS`, capped by `MAX_GLOBAL_ATTEMPTS`. -/
def draw_total_attempts_planned {G : Type} (R : PyRng G) (g : G) :
    Except String (ℕ × G) :=
  match weighted_choice_key R g GLOBAL_ATTEMPT_WEIGHTS with
  | .error e => .error e
  | .ok (n, g') => .ok (min n MAX_GLOBAL_ATTEMPTS, g')

/-! ## The per-order state machine of `run` -/

/-- One row of the `payments` table, as built by `run`. -/
structure PaymentRow where
  order_id : ℕ
  attempt_no : ℕ
  payment_date : ℤ
  amount_paid : ℚ
  payment_method_id : ℕ
  payment_status_id : ℕ
deriving DecidableEq, Repr

/-- An eligible order (`OrderInfo` in the source); `order_status` 5 is
the distinguished cancelled status. -/
structure OrderInfo where
  order_id : ℕ
  order_date : ℤ
  order_status : ℕ
  order_total : ℚ
deriving DecidableEq, Repr

/-- The local state of the per-order attempt loop of `run`: the
generator, `current_method`, `method_counts`, `paid`, `attempt_no` and
the rows emitted so far for the order. -/
structure LoopState (G : Type) where
  g : G
  current : String
  counts : String → ℕ
  paid : Bool
  attemptNo : ℕ
  rows : List PaymentRow

/-- Outcome of one iteration of the attempt loop: leave the loop
(`brk`, covering both the no-alternative break and the success break) or
proceed to the next timestamp (`cont`). -/
inductive StepRes (G : Type) where
  | brk (st : LoopState G)
  | cont (st : LoopState G)

/-- The per-method counter bump
`method_counts[method] = method_counts.get(method, 0) + 1`. -/
def upd (counts : String → ℕ) (method : String) : String → ℕ :=
  fun m => if m = method then counts m + 1 else counts m

/-- Tail of one loop iteration of `run`, after the method for the
attempt is settled: bump the per-method counter and `attempt_no`, draw
success/failure, then look the method up in the method-code table — a
missing code skips the row (`continue`) after the draw was already
consumed; otherwise emit a paid row (success, full total, leave the
loop) or a failed row (amount zero, next timestamp). -/
def attemptFinish {G : Type} (methodTbl statusTbl : List (String × ℕ))
    (R : PyRng G) (o : OrderInfo) (t : ℤ) (st : LoopState G)
    (method : String) (g : G) : Option (StepRes G) :=
  match lookupKey methodTbl method with
  | none =>
    some (.cont ⟨(R.random g).2, method, upd st.counts method, st.paid,
      st.attemptNo + 1, st.rows⟩)
  | some mid =>
    if (R.random g).1 < (cfgOf method).success_rate then
      match lookupKey statusTbl "paid" with
      | none => none
      | some pId =>
        some (.brk ⟨(R.random g).2, method, upd st.counts method, true,
          st.attemptNo + 1,
          st.rows ++ [⟨o.order_id, st.attemptNo + 1, t, o.order_total, mid, pId⟩]⟩)
    else
      match lookupKey statusTbl "failed" with
      | none => none
      | some fId =>
        some (.cont ⟨(R.random g).2, method, upd st.counts method, st.paid,
          st.attemptNo + 1,
          st.rows ++ [⟨o.order_id, st.attemptNo + 1, t, 0, mid, fId⟩]⟩)

/-- One iteration of the attempt loop of `run` for timestamp `t`: pick
the method (the initial one on the first attempt, `pick_next_method`
afterwards), re-pick among under-cap alternatives when the choice is at
its cap (breaking out when none remains), then `attemptFinish`.  `none`
models an exception escaping the loop. -/
def attemptStep {G : Type} (methodTbl statusTbl : List (String × ℕ))
    (R : PyRng G) (o : OrderInfo) (t : ℤ) (st : LoopState G) :
    Option (StepRes G) :=
  match (if st.attemptNo = 0 then Except.ok (st.current, st.g)
         else pick_next_method R st.g st.current st.counts) with
  | .error _ => none
  | .ok (m1, g1) =>
    if min (cfgOf m1).max_attempts MAX_GLOBAL_ATTEMPTS ≤ st.counts m1 then
      if ((available_methods_by_cap st.counts).erase m1).isEmpty then
        some (.brk ⟨g1, m1, st.counts, st.paid, st.attemptNo, st.rows⟩)
      else
        match weighted_choice_key R g1
            (((available_methods_by_cap st.counts).erase m1).map
              fun m => (m, (cfgOf m).weight)) with
        | .error _ => none
        | .ok (m2, g2) => attemptFinish methodTbl statusTbl R o t st m2 g2
    else attemptFinish methodTbl statusTbl R o t st m1 g1

/-- The `for t in attempt_times` loop of `run`. -/
def attemptLoop {G : Type} (methodTbl statusTbl : List (String × ℕ))
    (R : PyRng G) (o : OrderInfo) :
    List ℤ → LoopState G → Option (LoopState G)
  | [], st => some st
  | t :: ts, st =>
    if st.paid then some st
    else
      match attemptStep methodTbl statusTbl R o t st with
      | none => none
      | some (.brk st') => some st'
      | some (.cont st') => attemptLoop methodTbl statusTbl R o ts st'

/-- The whole per-order body of `run`: draw the planned attempt count and
the sorted timestamps, draw the initial method, run the attempt loop,
then—when no attempt succeeded and the order is not cancelled (status
5)—append the forced-resolution paid row one second after the last
attempt (or after the order date when there was none), using the current
method's id or, failing that, the first id of the method table. -/
def simulateOrder {G : Type} (R : PyRng G)
    (methodTbl statusTbl : List (String × ℕ)) (fuel : ℕ)
    (o : OrderInfo) (g : G) : Option (LoopState G) :=
  match draw_total_attempts_planned R g with
  | .error _ => none
  | .ok (planned, g1) =>
    match sorted_attempt_times R g1 o.order_date planned fuel with
    | none => none
    | some (ts, g2) =>
      match weighted_choice_key R g2 build_method_weights with
      | .error _ => none
      | .ok (m0, g3) =>
        match attemptLoop methodTbl statusTbl R o ts ⟨g3, m0, fun _ => 0, false, 0, []⟩ with
        | none => none
        | some st =>
          if st.paid then some st
          else if o.order_status ≠ 5 then
            match (match lookupKey methodTbl st.current with
                   | some i => some i
                   | none => methodTbl.head?.map Prod.snd) with
            | none => none
            | some mid =>
              match lookupKey statusTbl "paid" with
              | none => none
              | some pId =>
                some { st with
                  attemptNo := st.attemptNo + 1,
                  rows := st.rows ++
                    [⟨o.order_id, st.attemptNo + 1,
                      (match ts.getLast? with
                       | some tl => tl + 1
                       | none => o.order_date + 1),
                      o.order_total, mid, pId⟩] }
          else some st

/-- The order loop of `run`: simulate every order in sequence, threading
one generator, concatenating the emitted rows in order. -/
def runGen {G : Type} (R : PyRng G) (methodTbl statusTbl : List (String × ℕ))
    (fuel : ℕ) : List OrderInfo → G → Option (List PaymentRow × G)
  | [], g => some ([], g)
  | o :: os, g =>
    match simulateOrder R methodTbl statusTbl fuel o g with
    | none => none
    | some st =>
      match runGen R methodTbl statusTbl fuel os st.g with
      | none => none
      | some (rest, g') => some (st.rows ++ rest, g')

/-! ## Batch persistence buffer (`insert_payments_in_batches`) -/

/-- The buffer loop of `insert_payments_in_batches`: append each record
to the buffer and flush (one `executemany` call) once the buffer reaches
a non-zero `batch_size`; any non-empty remainder is flushed at the end.
The result is the list of flushed chunks, in flush order. -/
def batchLoop {α : Type} (batchSize : ℕ) (buf : List α) : List α → List (List α)
  | [] => if buf.isEmpty then [] else [buf]
  | r :: rs =>
    let buf' := buf ++ [r]
    if batchSize ≠ 0 ∧ batchSize ≤ buf'.length then buf' :: batchLoop batchSize [] rs
    else batchLoop batchSize buf' rs

/-- `insert_payments_in_batches`, observed through the sequence of chunks
it hands to storage (an empty row list is returned untouched with no
flush). -/
def insert_payments_in_batches {α : Type} (rows : List α) (batchSize : ℕ) :
    List (List α) :=
  if rows.isEmpty then [] else batchLoop batchSize [] rows

/-! ## Weighted sampling without replacement (`insert_order_items.py`) -/

/-- The simultaneous swap of positions `idx` and `len - 1` followed by
`pop()`, as performed on both the candidate pool and its weight list. -/
def swapPop {α : Type} (l : List α) (idx : ℕ) (dflt : α) : List α :=
  ((l.set idx (l.getD (l.length - 1) dflt)).set (l.length - 1) (l.getD idx dflt)).dropLast

/-- The working state of `sample_unique_products_weighted`: the
generator, the shrinking candidate pool, its parallel weight list and
the elements chosen so far. -/
structure SampleState (G : Type) where
  g : G
  pool : List ℕ
  weights : List ℚ
  chosen : List ℕ

/-- The `for _ in range(k)` loop of `sample_unique_products_weighted`:
draw one weighted index over the pool through `rng.choices`, move the
drawn element to the chosen list, swap-pop it (and its weight) out of
the pool, and stop early when the remaining weights sum to zero or
less. -/
def sampleLoop {G : Type} (R : PyRng G) : ℕ → SampleState G →
    Except String (SampleState G)
  | 0, st => .ok st
  | k + 1, st =>
    match pyChoices R st.g (List.range st.pool.length) st.weights with
    | .error e => .error e
    | .ok (idx, g') =>
      let chosen' := st.chosen ++ [st.pool.getD idx 0]
      let pool' := swapPop st.pool idx 0
      let weights' := swapPop st.weights idx 0
      let st' : SampleState G := ⟨g', pool', weights', chosen'⟩
      if ¬ weights'.isEmpty ∧ sumQ weights' ≤ 0 then .ok st'
      else sampleLoop R k st'

/-- The weight attached to a candidate id: `weights_map.get(pid, 1.0)`. -/
def wgOf (weights_map : List (ℕ × ℚ)) (pid : ℕ) : ℚ :=
  (lookupKey weights_map pid).getD 1

/-- The drawing phase of `sample_unique_products_weighted` on a non-empty
pool with positive `k`: `min k n` rounds of the sampling loop starting
from the full candidate pool. -/
def sampleRun {G : Type} (R : PyRng G) (g : G) (candidate_ids : List ℕ)
    (weights_map : List (ℕ × ℚ)) (k : ℤ) : Except String (SampleState G) :=
  sampleLoop R (min k.toNat candidate_ids.length)
    ⟨g, candidate_ids, candidate_ids.map (wgOf weights_map), []⟩

/-- `sample_unique_products_weighted`: empty result for `k ≤ 0` or no
candidates, otherwise the chosen list of the sampling loop. -/
def sample_unique_products_weighted {G : Type} (R : PyRng G) (g : G)
    (candidate_ids : List ℕ) (weights_map : List (ℕ × ℚ)) (k : ℤ) :
    Except String (List ℕ) :=
  if k ≤ 0 ∨ candidate_ids.isEmpty then .ok []
  else
    match sampleRun R g candidate_ids weights_map k with
    | .error e => .error e
    | .ok st => .ok st.chosen

/-! ## Lemmas on the sampling primitives -/

theorem sumQ_nil_of : ∀ {ws : List ℚ}, ws = [] → sumQ ws = 0 := by
  intro ws h; subst h; rfl

theorem cumsumFrom_length (ws : List ℚ) : ∀ acc, (cumsumFrom acc ws).length = ws.length := by
  induction ws with
  | nil => intro acc; rfl
  | cons w t ih => intro acc; simp [cumsumFrom, ih]

theorem cumsumFrom_getLast? (ws : List ℚ) : ∀ acc, ws ≠ [] →
    (cumsumFrom acc ws).getLast? = some (acc + sumQ ws) := by
  induction ws with
  | nil => intro acc h; exact absurd rfl h
  | cons w t ih =>
    intro acc _
    cases t with
    | nil => simp [cumsumFrom, sumQ]
    | cons b t' =>
      have hrec := ih (acc + w) (by simp)
      simp only [cumsumFrom] at hrec ⊢
      rw [List.getLast?_cons_cons, hrec]
      simp only [sumQ]
      ring_nf

theorem cumsum_getLast? {ws : List ℚ} (h : ws ≠ []) :
    (cumsum ws).getLast? = some (sumQ ws) := by
  have := cumsumFrom_getLast? ws 0 h
  simpa [cumsum] using this

theorem bisectGo_bounds (a : List ℚ) (x : ℚ) : ∀ (fuel lo hi : ℕ), lo ≤ hi →
    lo ≤ bisectGo a x fuel lo hi ∧ bisectGo a x fuel lo hi ≤ hi := by
  intro fuel
  induction fuel with
  | zero => intro lo hi h; exact ⟨le_refl lo, h⟩
  | succ f ih =>
    intro lo hi h
    simp only [bisectGo]
    by_cases hlh : lo < hi
    · simp only [if_pos hlh]
      by_cases hx : x < a.getD ((lo + hi) / 2) 0
      · simp only [if_pos hx]
        have hb := ih lo ((lo + hi) / 2) (by omega)
        omega
      · simp only [if_neg hx]
        have hb := ih ((lo + hi) / 2 + 1) hi (by omega)
        omega
    · simp only [if_neg hlh]
      exact ⟨le_refl lo, h⟩

theorem bisect_right_le {a : List ℚ} {x : ℚ} {hi : ℕ} :
    bisect_right a x 0 hi ≤ hi :=
  (bisectGo_bounds a x (hi - 0) 0 hi (Nat.zero_le hi)).2

theorem isOk_ok {ε α : Type} (a : α) : (@Except.ok ε α a).isOk = true := rfl

theorem isOk_error {ε α : Type} (e : ε) : (@Except.error ε α e).isOk = false := rfl

theorem pyChoices_ok_mem {G K : Type} [Inhabited K] {R : PyRng G} {g : G}
    {pop : List K} {ws : List ℚ} {k : K} {g' : G}
    (h : pyChoices R g pop ws = .ok (k, g')) : k ∈ pop := by
  by_cases hlen : ws.length = pop.length
  case neg =>
    unfold pyChoices at h
    rw [if_pos (by omega)] at h
    exact absurd h (by simp)
  case pos =>
    unfold pyChoices at h
    rw [if_neg (by omega)] at h
    cases hTot : (cumsum ws).getLast? with
    | none => rw [hTot] at h; exact absurd h (by simp)
    | some total =>
      rw [hTot] at h
      dsimp only at h
      by_cases ht : total ≤ 0
      · rw [if_pos ht] at h; exact absurd h (by simp)
      · rw [if_neg ht] at h
        simp only [Except.ok.injEq, Prod.mk.injEq] at h
        have hne : ws ≠ [] := by
          intro hnil
          subst hnil
          simp [cumsum, cumsumFrom] at hTot
        have hplen : 0 < pop.length := by
          rw [← hlen]
          cases ws with
          | nil => exact absurd rfl hne
          | cons a t => simp
        have hidx : bisect_right (cumsum ws) ((R.random g).1 * total) 0 (pop.length - 1) <
            pop.length := by
          have hb := @bisect_right_le (cumsum ws) ((R.random g).1 * total)
            (pop.length - 1)
          omega
        rw [← h.1, List.getD_eq_getElem pop default hidx]
        exact List.getElem_mem hidx

theorem pyChoices_isOk_iff {G K : Type} [Inhabited K] {R : PyRng G} {g : G}
    {pop : List K} {ws : List ℚ} (hlen : ws.length = pop.length) :
    (pyChoices R g pop ws).isOk = true ↔ (ws ≠ [] ∧ 0 < sumQ ws) := by
  unfold pyChoices
  rw [if_neg (by omega)]
  by_cases hne : ws = []
  · subst hne
    simp only [cumsum, cumsumFrom, List.getLast?_nil, isOk_error]
    constructor
    · intro hc; cases hc
    · intro hc; exact absurd rfl hc.1
  · rw [cumsum_getLast? hne]
    dsimp only
    by_cases ht : sumQ ws ≤ 0
    · rw [if_pos ht]
      simp only [isOk_error]
      constructor
      · intro hc; cases hc
      · intro hc; exact absurd hc.2 (by linarith)
    · rw [if_neg ht]
      simp only [isOk_ok, true_iff]
      exact ⟨hne, by linarith⟩

theorem wck_ok_mem {G K : Type} [Inhabited K] {R : PyRng G} {g : G}
    {w : List (K × ℚ)} {k : K} {g' : G}
    (h : weighted_choice_key R g w = .ok (k, g')) : k ∈ w.map Prod.fst := by
  unfold weighted_choice_key at h
  by_cases he : w.isEmpty
  · rw [if_pos he] at h; exact absurd h (by simp)
  · rw [if_neg he] at h
    exact pyChoices_ok_mem h

theorem wck_isOk_iff {G K : Type} [Inhabited K] (R : PyRng G) (g : G)
    (w : List (K × ℚ)) :
    (weighted_choice_key R g w).isOk = true ↔ (w ≠ [] ∧ 0 < sumQ (w.map Prod.snd)) := by
  unfold weighted_choice_key
  by_cases he : w = []
  · subst he
    simp [isOk_error]
  · rw [if_neg (by simpa [List.isEmpty_iff] using he)]
    rw [pyChoices_isOk_iff (by simp)]
    constructor
    · intro hc; exact ⟨he, hc.2⟩
    · intro hc
      refine ⟨?_, hc.2⟩
      intro hnil
      exact he (List.map_eq_nil_iff.mp hnil)

/-! ## Claims on the weighted-distribution engine and the batch buffer -/

/-- The error condition of `normalize_distribution`: empty mapping, some
negative weight, or non-positive total. -/
def distErr {K : Type} (dist : List (K × ℚ)) : Prop :=
  dist = [] ∨ (∃ p ∈ dist, p.2 < 0) ∨ sumQ (dist.map Prod.snd) ≤ 0

/-- C6: `normalize_distribution` fails exactly when the mapping is empty,
some weight is negative, or the total is non-positive; otherwise it maps
each key to its weight divided by the total.  In particular it fails on
the mappings A↦0,B↦0 and A↦-1,B↦2 and sends A↦1,B↦3 to A↦1/4,B↦3/4. -/
theorem normalize_distribution_c6 :
    (∀ (K : Type) (dist : List (K × ℚ)),
      ((normalize_distribution dist).isOk = false ↔ distErr dist) ∧
      (∀ out, normalize_distribution dist = .ok out →
        out = dist.map fun p => (p.1, p.2 / sumQ (dist.map Prod.snd)))) ∧
    (normalize_distribution [("A", (0 : ℚ)), ("B", 0)]).isOk = false ∧
    (normalize_distribution [("A", (-1 : ℚ)), ("B", 2)]).isOk = false ∧
    normalize_distribution [("A", (1 : ℚ)), ("B", 3)] = .ok [("A", 1/4), ("B", 3/4)] := by
  refine ⟨?_, by with_unfolding_all decide, by with_unfolding_all decide, by with_unfolding_all rfl⟩
  intro K dist
  have hany : ((dist.any fun p => p.2 < 0) = true) ↔ ∃ p ∈ dist, p.2 < 0 := by
    simp [List.any_eq_true]
  unfold normalize_distribution
  by_cases h1 : dist = []
  · subst h1
    refine ⟨?_, ?_⟩
    · exact iff_of_true rfl (Or.inl rfl)
    · intro out hout; exact absurd hout (by simp)
  · rw [if_neg (by simpa [List.isEmpty_iff] using h1)]
    by_cases h2 : ∃ p ∈ dist, p.2 < 0
    · rw [if_pos (hany.mpr h2)]
      refine ⟨iff_of_true rfl (Or.inr (Or.inl h2)), ?_⟩
      intro out hout; exact absurd hout (by simp)
    · rw [if_neg (by simpa [hany] using h2)]
      by_cases h3 : sumQ (dist.map Prod.snd) ≤ 0
      · rw [if_pos h3]
        refine ⟨iff_of_true rfl (Or.inr (Or.inr h3)), ?_⟩
        intro out hout; exact absurd hout (by simp)
      · rw [if_neg h3]
        refine ⟨?_, ?_⟩
        · refine iff_of_false (by simp [isOk_ok]) ?_
          rintro (hc | hc | hc)
          · exact h1 hc
          · exact h2 hc
          · exact h3 hc
        · intro out hout
          simp only [Except.ok.injEq] at hout
          exact hout.symm

/-- Witness for C6 at the concrete mapping A↦1,B↦3. -/
theorem normalize_distribution_c6_witness :
    [("A", (1 : ℚ)/4), ("B", 3/4)] =
      [("A", (1 : ℚ)), ("B", 3)].map
        (fun p => (p.1, p.2 / sumQ ([("A", (1 : ℚ)), ("B", 3)].map Prod.snd))) :=
  (normalize_distribution_c6.1 String [("A", (1 : ℚ)), ("B", 3)]).2
    [("A", 1/4), ("B", 3/4)] (by with_unfolding_all rfl)

/-- C7 (amended): `weighted_choice_key` fails exactly when the mapping is
empty or its total weight is non-positive — a negative weight with a
positive total is not rejected, so the failure conditions are strictly
weaker than those of `normalize_distribution` — and every successful draw
returns one of the mapping's keys. -/
theorem weighted_choice_key_c7_amended :
    ∀ (G K : Type) [Inhabited K] (R : PyRng G) (g : G) (w : List (K × ℚ)),
      ((weighted_choice_key R g w).isOk = false ↔
        (w = [] ∨ sumQ (w.map Prod.snd) ≤ 0)) ∧
      (∀ k g', weighted_choice_key R g w = .ok (k, g') → k ∈ w.map Prod.fst) := by
  intro G K _ R g w
  refine ⟨?_, fun k g' h => wck_ok_mem h⟩
  rw [Bool.eq_false_iff, ne_eq, wck_isOk_iff]
  constructor
  · intro hc
    by_cases hw : w = []
    · exact Or.inl hw
    · right
      by_contra hs
      exact hc ⟨hw, by linarith⟩
  · rintro (hc | hc) ⟨hA, hB⟩
    · exact hA hc
    · linarith

/-- Counterexample to C7 as stated: the mapping A↦-1,B↦2 has a negative
weight, so `normalize_distribution` rejects it, yet `weighted_choice_key`
draws from it without error. -/
theorem weighted_choice_key_c7_counterexample :
    (normalize_distribution [("A", (-1 : ℚ)), ("B", 2)]).isOk = false ∧
    (weighted_choice_key listRng ([1/2], []) [("A", (-1 : ℚ)), ("B", 2)]).isOk = true :=
  ⟨by with_unfolding_all decide, by with_unfolding_all decide⟩

/-- Witness for C7 (amended) at the mapping A↦-1,B↦2 and a concrete
generator state. -/
theorem weighted_choice_key_c7_witness :
    "B" ∈ [("A", (-1 : ℚ)), ("B", 2)].map Prod.fst :=
  (weighted_choice_key_c7_amended _ _ listRng (([1/2] : List ℚ), ([] : List ℕ))
    [("A", (-1 : ℚ)), ("B", 2)]).2 "B" ([], []) (by with_unfolding_all rfl)

/-- C3: determinism of the generation pass — all stochastic decisions
consume the one generator state derived from the seed, and the output is
a pure function of that state and the declared inputs, so equal seeds
give equal row sequences. -/
theorem run_deterministic_c3 :
    ∀ (G : Type) (R : PyRng G) (seedGen : ℤ → G)
      (methodTbl statusTbl : List (String × ℕ)) (fuel : ℕ)
      (orders : List OrderInfo) (s1 s2 : ℤ), s1 = s2 →
      runGen R methodTbl statusTbl fuel orders (seedGen s1) =
        runGen R methodTbl statusTbl fuel orders (seedGen s2) := by
  intro G R seedGen mt st fuel orders s1 s2 h
  rw [h]

/-- Witness for C3 at seed 42 and an empty order list. -/
theorem run_deterministic_c3_witness :
    runGen listRng [("card", 1)] [("paid", 1), ("failed", 2)] 100 []
        ((fun _ => (([], []) : List ℚ × List ℕ)) (42 : ℤ)) =
      runGen listRng [("card", 1)] [("paid", 1), ("failed", 2)] 100 []
        ((fun _ => (([], []) : List ℚ × List ℕ)) (42 : ℤ)) :=
  run_deterministic_c3 _ listRng (fun _ => ([], [])) _ _ 100 [] 42 42 rfl

theorem batchLoop_flatten {α : Type} (bs : ℕ) :
    ∀ (rs buf : List α), (batchLoop bs buf rs).flatten = buf ++ rs := by
  intro rs
  induction rs with
  | nil =>
    intro buf
    by_cases h : buf.isEmpty
    · simp [batchLoop, h, List.isEmpty_iff.mp h]
    · simp [batchLoop, h]
  | cons r rs ih =>
    intro buf
    rw [batchLoop]
    by_cases h : bs ≠ 0 ∧ bs ≤ (buf ++ [r]).length
    · rw [if_pos h]
      simp [ih]
    · rw [if_neg h]
      rw [ih (buf ++ [r])]
      simp

theorem batchLoop_sizes {α : Type} (bs : ℕ) :
    ∀ (rs buf : List α), buf.length < bs →
      ∀ c ∈ batchLoop bs buf rs, c.length ≤ bs := by
  intro rs
  induction rs with
  | nil =>
    intro buf hlen c hc
    by_cases h : buf.isEmpty
    · simp [batchLoop, h] at hc
    · simp only [batchLoop, h, if_neg] at hc
      simp at hc
      subst hc
      omega
  | cons r rs ih =>
    intro buf hlen c hc
    rw [batchLoop] at hc
    by_cases h : bs ≠ 0 ∧ bs ≤ (buf ++ [r]).length
    · rw [if_pos h] at hc
      rcases List.mem_cons.mp hc with hc | hc
      · subst hc
        simp only [List.length_append, List.length_cons, List.length_nil]
        omega
      · exact ih [] (by simpa using Nat.pos_of_ne_zero h.1) c hc
    · rw [if_neg h] at hc
      refine ih (buf ++ [r]) ?_ c hc
      simp only [List.length_append, List.length_cons, List.length_nil]
      by_cases hz : bs = 0
      · omega
      · have : ¬ bs ≤ (buf ++ [r]).length := fun hle => h ⟨hz, hle⟩
        simp only [List.length_append, List.length_cons, List.length_nil] at this
        omega

/-- C9: the batch buffer hands to storage exactly the rows produced, in
order, in contiguous chunks each of size at most any positive threshold;
with threshold 3 and 7 rows the chunk sizes are 3, 3, 1. -/
theorem insert_payments_in_batches_c9 :
    (∀ (α : Type) (rows : List α) (bs : ℕ), 0 < bs →
      (insert_payments_in_batches rows bs).flatten = rows ∧
      ∀ c ∈ insert_payments_in_batches rows bs, c.length ≤ bs) ∧
    (insert_payments_in_batches [1, 2, 3, 4, 5, 6, 7] 3).map List.length = [3, 3, 1] := by
  refine ⟨?_, by decide⟩
  intro α rows bs hbs
  unfold insert_payments_in_batches
  by_cases h : rows.isEmpty
  · rw [if_pos h]
    rw [List.isEmpty_iff.mp h]
    exact ⟨rfl, by simp⟩
  · rw [if_neg h]
    exact ⟨by simpa using batchLoop_flatten bs rows [],
      batchLoop_sizes bs rows [] (by simpa using hbs)⟩

/-- Witness for C9 at threshold 3 with 7 rows. -/
theorem insert_payments_in_batches_c9_witness :
    0 < 3 ∧ (insert_payments_in_batches [1, 2, 3, 4, 5, 6, 7] 3).flatten =
      [1, 2, 3, 4, 5, 6, 7] :=
  ⟨by decide, (insert_payments_in_batches_c9.1 ℕ [1, 2, 3, 4, 5, 6, 7] 3 (by decide)).1⟩

/-! ## Lemmas on the per-order state machine -/

/-- The lookup of a configured method's record agrees with the table. -/
theorem lookupKey_config_eq : ∀ p ∈ PAYMENT_METHOD_CONFIG, cfgOf p.1 = p.2 := by
  with_unfolding_all decide

/-- The method is strictly below its effective cap. -/
def underCap (counts : String → ℕ) (m : String) : Prop :=
  counts m < min (cfgOf m).max_attempts MAX_GLOBAL_ATTEMPTS

/-- Provenance of the method used in one loop iteration: either the
current method or one of the under-cap configured methods. -/
def mProv {G : Type} (s : LoopState G) (m : String) : Prop :=
  m = s.current ∨ m ∈ available_methods_by_cap s.counts

theorem available_mem {counts : String → ℕ} {m : String}
    (h : m ∈ available_methods_by_cap counts) :
    (m, cfgOf m) ∈ PAYMENT_METHOD_CONFIG ∧ underCap counts m := by
  unfold available_methods_by_cap at h
  rw [List.mem_map] at h
  obtain ⟨p, hp, hfst⟩ := h
  rw [List.mem_filter] at hp
  have hcfg : cfgOf p.1 = p.2 := lookupKey_config_eq p hp.1
  have hlt : counts p.1 < min p.2.max_attempts MAX_GLOBAL_ATTEMPTS := by
    simpa using hp.2
  subst hfst
  rw [hcfg]
  exact ⟨hp.1, by unfold underCap; rw [hcfg]; exact hlt⟩

theorem available_mem_keys {counts : String → ℕ} {m : String}
    (h : m ∈ available_methods_by_cap counts) :
    m ∈ PAYMENT_METHOD_CONFIG.map Prod.fst :=
  List.mem_map.mpr ⟨(m, cfgOf m), (available_mem h).1, rfl⟩

theorem pickSwitch_ok_cases {G : Type} {R : PyRng G} {g : G} {cur : String}
    {counts : String → ℕ} {m : String} {g' : G}
    (h : pick_next_method.pickSwitch R g cur counts = .ok (m, g')) :
    m = cur ∨ m ∈ available_methods_by_cap counts := by
  unfold pick_next_method.pickSwitch at h
  by_cases he : ((available_methods_by_cap counts).erase cur).isEmpty
  · rw [if_pos he] at h
    simp only [Except.ok.injEq, Prod.mk.injEq] at h
    exact Or.inl h.1.symm
  · rw [if_neg he] at h
    have hm := wck_ok_mem h
    right
    have : m ∈ (available_methods_by_cap counts).erase cur := by
      simpa [List.map_map, Function.comp] using hm
    exact List.mem_of_mem_erase this

theorem pick_next_method_ok_cases {G : Type} {R : PyRng G} {g : G} {cur : String}
    {counts : String → ℕ} {m : String} {g' : G}
    (h : pick_next_method R g cur counts = .ok (m, g')) :
    m = cur ∨ m ∈ available_methods_by_cap counts := by
  unfold pick_next_method at h
  by_cases h1 : min (cfgOf cur).max_attempts MAX_GLOBAL_ATTEMPTS ≤ counts cur
  · rw [if_pos h1] at h
    exact pickSwitch_ok_cases h
  · rw [if_neg h1] at h
    by_cases h2 : (R.random g).1 ≤ (cfgOf cur).stay_with_method_prob
    · rw [if_pos h2] at h
      simp only [Except.ok.injEq, Prod.mk.injEq] at h
      exact Or.inl h.1.symm
    · rw [if_neg h2] at h
      exact pickSwitch_ok_cases h

theorem attemptFinish_cases {G : Type} {mt stT : List (String × ℕ)} {R : PyRng G}
    {o : OrderInfo} {t : ℤ} {s : LoopState G} {m : String} {g : G} {res : StepRes G}
    (h : attemptFinish mt stT R o t s m g = some res) :
    (lookupKey mt m = none ∧
      res = .cont ⟨(R.random g).2, m, upd s.counts m, s.paid, s.attemptNo + 1, s.rows⟩) ∨
    (∃ mid pId, lookupKey mt m = some mid ∧ lookupKey stT "paid" = some pId ∧
      res = .brk ⟨(R.random g).2, m, upd s.counts m, true, s.attemptNo + 1,
        s.rows ++ [⟨o.order_id, s.attemptNo + 1, t, o.order_total, mid, pId⟩]⟩) ∨
    (∃ mid fId, lookupKey mt m = some mid ∧ lookupKey stT "failed" = some fId ∧
      res = .cont ⟨(R.random g).2, m, upd s.counts m, s.paid, s.attemptNo + 1,
        s.rows ++ [⟨o.order_id, s.attemptNo + 1, t, 0, mid, fId⟩]⟩) := by
  unfold attemptFinish at h
  cases hm : lookupKey mt m with
  | none =>
    rw [hm] at h
    dsimp only at h
    injection h with h
    exact Or.inl ⟨rfl, h.symm⟩
  | some mid =>
    rw [hm] at h
    dsimp only at h
    by_cases hs : (R.random g).1 < (cfgOf m).success_rate
    · rw [if_pos hs] at h
      cases hpd : lookupKey stT "paid" with
      | none => rw [hpd] at h; cases h
      | some pId =>
        rw [hpd] at h
        dsimp only at h
        injection h with h
        exact Or.inr (Or.inl ⟨mid, pId, rfl, rfl, h.symm⟩)
    · rw [if_neg hs] at h
      cases hfd : lookupKey stT "failed" with
      | none => rw [hfd] at h; cases h
      | some fId =>
        rw [hfd] at h
        dsimp only at h
        injection h with h
        exact Or.inr (Or.inr ⟨mid, fId, rfl, rfl, h.symm⟩)

theorem attemptStep_cases {G : Type} {mt stT : List (String × ℕ)} {R : PyRng G}
    {o : OrderInfo} {t : ℤ} {s : LoopState G} {res : StepRes G}
    (h : attemptStep mt stT R o t s = some res) :
    (∃ m g1, mProv s m ∧
      res = .brk ⟨g1, m, s.counts, s.paid, s.attemptNo, s.rows⟩) ∨
    (∃ m, mProv s m ∧ underCap s.counts m ∧
      ((lookupKey mt m = none ∧ ∃ g2,
          res = .cont ⟨g2, m, upd s.counts m, s.paid, s.attemptNo + 1, s.rows⟩) ∨
       (∃ g2 mid pId, lookupKey mt m = some mid ∧ lookupKey stT "paid" = some pId ∧
          res = .brk ⟨g2, m, upd s.counts m, true, s.attemptNo + 1,
            s.rows ++ [⟨o.order_id, s.attemptNo + 1, t, o.order_total, mid, pId⟩]⟩) ∨
       (∃ g2 mid fId, lookupKey mt m = some mid ∧ lookupKey stT "failed" = some fId ∧
          res = .cont ⟨g2, m, upd s.counts m, s.paid, s.attemptNo + 1,
            s.rows ++ [⟨o.order_id, s.attemptNo + 1, t, 0, mid, fId⟩]⟩))) := by
  unfold attemptStep at h
  have main : ∀ (m1 : String) (g1 : G), mProv s m1 →
      (if min (cfgOf m1).max_attempts MAX_GLOBAL_ATTEMPTS ≤ s.counts m1 then
        if ((available_methods_by_cap s.counts).erase m1).isEmpty then
          some (.brk ⟨g1, m1, s.counts, s.paid, s.attemptNo, s.rows⟩)
        else
          match weighted_choice_key R g1
              (((available_methods_by_cap s.counts).erase m1).map
                fun m => (m, (cfgOf m).weight)) with
          | .error _ => none
          | .ok (m2, g2) => attemptFinish mt stT R o t s m2 g2
      else attemptFinish mt stT R o t s m1 g1) = some res →
      (∃ m g1, mProv s m ∧
        res = .brk ⟨g1, m, s.counts, s.paid, s.attemptNo, s.rows⟩) ∨
      (∃ m, mProv s m ∧ underCap s.counts m ∧
        ((lookupKey mt m = none ∧ ∃ g2,
            res = .cont ⟨g2, m, upd s.counts m, s.paid, s.attemptNo + 1, s.rows⟩) ∨
         (∃ g2 mid pId, lookupKey mt m = some mid ∧ lookupKey stT "paid" = some pId ∧
            res = .brk ⟨g2, m, upd s.counts m, true, s.attemptNo + 1,
              s.rows ++ [⟨o.order_id, s.attemptNo + 1, t, o.order_total, mid, pId⟩]⟩) ∨
         (∃ g2 mid fId, lookupKey mt m = some mid ∧ lookupKey stT "failed" = some fId ∧
            res = .cont ⟨g2, m, upd s.counts m, s.paid, s.attemptNo + 1,
              s.rows ++ [⟨o.order_id, s.attemptNo + 1, t, 0, mid, fId⟩]⟩))) := by
    intro m1 g1 hprov hbody
    by_cases hcap : min (cfgOf m1).max_attempts MAX_GLOBAL_ATTEMPTS ≤ s.counts m1
    · rw [if_pos hcap] at hbody
      by_cases he : ((available_methods_by_cap s.counts).erase m1).isEmpty
      · rw [if_pos he] at hbody
        injection hbody with hbody
        exact Or.inl ⟨m1, g1, hprov, hbody.symm⟩
      · rw [if_neg he] at hbody
        cases hw : weighted_choice_key R g1
            (((available_methods_by_cap s.counts).erase m1).map
              fun m => (m, (cfgOf m).weight)) with
        | error e => rw [hw] at hbody; cases hbody
        | ok p =>
          obtain ⟨m2, g2⟩ := p
          rw [hw] at hbody
          dsimp only at hbody
          have hm2av : m2 ∈ available_methods_by_cap s.counts := by
            have hmem := wck_ok_mem hw
            have : m2 ∈ (available_methods_by_cap s.counts).erase m1 := by
              simpa [List.map_map, Function.comp] using hmem
            exact List.mem_of_mem_erase this
          have hm2cap : underCap s.counts m2 := (available_mem hm2av).2
          rcases attemptFinish_cases hbody with ⟨hn, hres⟩ | ⟨mid, pId, h1, h2, hres⟩ |
            ⟨mid, fId, h1, h2, hres⟩
          · exact Or.inr ⟨m2, Or.inr hm2av, hm2cap, Or.inl ⟨hn, _, hres⟩⟩
          · exact Or.inr ⟨m2, Or.inr hm2av, hm2cap,
              Or.inr (Or.inl ⟨_, mid, pId, h1, h2, hres⟩)⟩
          · exact Or.inr ⟨m2, Or.inr hm2av, hm2cap,
              Or.inr (Or.inr ⟨_, mid, fId, h1, h2, hres⟩)⟩
    · rw [if_neg hcap] at hbody
      have hm1cap : underCap s.counts m1 := by
        unfold underCap
        omega
      rcases attemptFinish_cases hbody with ⟨hn, hres⟩ | ⟨mid, pId, h1, h2, hres⟩ |
        ⟨mid, fId, h1, h2, hres⟩
      · exact Or.inr ⟨m1, hprov, hm1cap, Or.inl ⟨hn, _, hres⟩⟩
      · exact Or.inr ⟨m1, hprov, hm1cap, Or.inr (Or.inl ⟨_, mid, pId, h1, h2, hres⟩)⟩
      · exact Or.inr ⟨m1, hprov, hm1cap, Or.inr (Or.inr ⟨_, mid, fId, h1, h2, hres⟩)⟩
  by_cases h0 : s.attemptNo = 0
  · rw [if_pos h0] at h
    dsimp only at h
    exact main s.current s.g (Or.inl rfl) h
  · rw [if_neg h0] at h
    cases hpick : pick_next_method R s.g s.current s.counts with
    | error e => rw [hpick] at h; cases h
    | ok p =>
      obtain ⟨m1, g1⟩ := p
      rw [hpick] at h
      dsimp only at h
      exact main m1 g1 (pick_next_method_ok_cases hpick) h

/-- C5's invariant: no configured method's per-order counter exceeds
`min(max_attempts, MAX_GLOBAL_ATTEMPTS)`. -/
def countsInv (counts : String → ℕ) : Prop :=
  ∀ p ∈ PAYMENT_METHOD_CONFIG, counts p.1 ≤ min p.2.max_attempts MAX_GLOBAL_ATTEMPTS

instance (counts : String → ℕ) : Decidable (countsInv counts) :=
  decidable_of_iff
    (∀ p ∈ PAYMENT_METHOD_CONFIG,
      counts p.1 ≤ min p.2.max_attempts MAX_GLOBAL_ATTEMPTS) Iff.rfl

theorem countsInv_upd {counts : String → ℕ} {m : String}
    (hinv : countsInv counts) (hcap : underCap counts m) :
    countsInv (upd counts m) := by
  intro p hp
  unfold upd
  by_cases he : p.1 = m
  · rw [if_pos he]
    have hcfg : cfgOf p.1 = p.2 := lookupKey_config_eq p hp
    rw [he] at hcfg
    unfold underCap at hcap
    rw [hcfg] at hcap
    rw [he]
    omega
  · rw [if_neg he]
    exact hinv p hp

theorem attemptLoop_countsInv {G : Type} {mt stT : List (String × ℕ)} {R : PyRng G}
    {o : OrderInfo} :
    ∀ (ts : List ℤ) (s s' : LoopState G), countsInv s.counts →
      attemptLoop mt stT R o ts s = some s' → countsInv s'.counts := by
  intro ts
  induction ts with
  | nil =>
    intro s s' hinv h
    rw [attemptLoop] at h
    injection h with h
    rw [← h]
    exact hinv
  | cons t ts ih =>
    intro s s' hinv h
    rw [attemptLoop] at h
    by_cases hp : s.paid
    · rw [if_pos hp] at h
      injection h with h
      rw [← h]
      exact hinv
    · rw [if_neg hp] at h
      cases hstep : attemptStep mt stT R o t s with
      | none => rw [hstep] at h; cases h
      | some res =>
        rw [hstep] at h
        rcases attemptStep_cases hstep with ⟨m, g1, _, hres⟩ | ⟨m, _, hcap, hc⟩
        · subst hres
          dsimp only at h
          injection h with h
          rw [← h]
          exact hinv
        · rcases hc with ⟨_, g2, hres⟩ | ⟨g2, mid, pId, _, _, hres⟩ |
            ⟨g2, mid, fId, _, _, hres⟩
          · subst hres
            dsimp only at h
            exact ih _ s' (countsInv_upd hinv hcap) h
          · subst hres
            dsimp only at h
            injection h with h
            rw [← h]
            exact countsInv_upd hinv hcap
          · subst hres
            dsimp only at h
            exact ih _ s' (countsInv_upd hinv hcap) h

theorem simulateOrder_cases {G : Type} {R : PyRng G} {mt stT : List (String × ℕ)}
    {fuel : ℕ} {o : OrderInfo} {g : G} {s : LoopState G}
    (h : simulateOrder R mt stT fuel o g = some s) :
    ∃ (ts : List ℤ) (m0 : String) (g3 : G) (st : LoopState G),
      m0 ∈ PAYMENT_METHOD_CONFIG.map Prod.fst ∧
      attemptLoop mt stT R o ts ⟨g3, m0, fun _ => 0, false, 0, []⟩ = some st ∧
      ((st.paid = true ∧ s = st) ∨
       (st.paid = false ∧ o.order_status = 5 ∧ s = st) ∨
       (st.paid = false ∧ o.order_status ≠ 5 ∧
        ∃ (tF : ℤ) (mid pId : ℕ), lookupKey stT "paid" = some pId ∧
          s = ⟨st.g, st.current, st.counts, st.paid, st.attemptNo + 1,
               st.rows ++
                 [⟨o.order_id, st.attemptNo + 1, tF, o.order_total, mid, pId⟩]⟩)) := by
  unfold simulateOrder at h
  cases hd : draw_total_attempts_planned R g with
  | error e => rw [hd] at h; cases h
  | ok p1 =>
    obtain ⟨planned, g1⟩ := p1
    rw [hd] at h
    dsimp only at h
    cases hst : sorted_attempt_times R g1 o.order_date planned fuel with
    | none => rw [hst] at h; cases h
    | some p2 =>
      obtain ⟨ts, g2⟩ := p2
      rw [hst] at h
      dsimp only at h
      cases hw : weighted_choice_key R g2 build_method_weights with
      | error e => rw [hw] at h; cases h
      | ok p3 =>
        obtain ⟨m0, g3⟩ := p3
        rw [hw] at h
        dsimp only at h
        have hm0 : m0 ∈ PAYMENT_METHOD_CONFIG.map Prod.fst := by
          have hmem := wck_ok_mem hw
          simpa [build_method_weights, List.map_map, Function.comp] using hmem
        cases hloop : attemptLoop mt stT R o ts ⟨g3, m0, fun _ => 0, false, 0, []⟩ with
        | none => rw [hloop] at h; cases h
        | some st =>
          rw [hloop] at h
          dsimp only at h
          refine ⟨ts, m0, g3, st, hm0, hloop, ?_⟩
          by_cases hpaid : st.paid
          · rw [if_pos hpaid] at h
            injection h with h
            exact Or.inl ⟨hpaid, h.symm⟩
          · rw [if_neg hpaid] at h
            by_cases hstat : o.order_status ≠ 5
            · rw [if_pos hstat] at h
              cases hmid : (match lookupKey mt st.current with
                            | some i => some i
                            | none => mt.head?.map Prod.snd) with
              | none => rw [hmid] at h; cases h
              | some mid =>
                rw [hmid] at h
                dsimp only at h
                cases hpd : lookupKey stT "paid" with
                | none => rw [hpd] at h; cases h
                | some pId =>
                  rw [hpd] at h
                  dsimp only at h
                  injection h with h
                  refine Or.inr (Or.inr ⟨by simpa using hpaid, hstat, _, mid, pId, rfl,
                    h.symm⟩)
            · rw [if_neg hstat] at h
              injection h with h
              push_neg at hstat
              exact Or.inr (Or.inl ⟨by simpa using hpaid, hstat, h.symm⟩)

/-- C5: per order and per configured method, the per-method counter never
exceeds `min(max_attempts, MAX_GLOBAL_ATTEMPTS)`: the bound is an
invariant preserved by every iteration of the attempt loop, and it holds
of the final state of every order's simulation. -/
theorem payments_c5 :
    (∀ (G : Type) (mt stT : List (String × ℕ)) (R : PyRng G) (o : OrderInfo)
      (ts : List ℤ) (s s' : LoopState G), countsInv s.counts →
      attemptLoop mt stT R o ts s = some s' → countsInv s'.counts) ∧
    (∀ (G : Type) (R : PyRng G) (mt stT : List (String × ℕ)) (fuel : ℕ)
      (o : OrderInfo) (g : G) (s : LoopState G),
      simulateOrder R mt stT fuel o g = some s → countsInv s.counts) := by
  refine ⟨fun G mt stT R o ts s s' => attemptLoop_countsInv ts s s', ?_⟩
  intro G R mt stT fuel o g s h
  obtain ⟨ts, m0, g3, st, hm0, hloop, hpost⟩ := simulateOrder_cases h
  have hst : countsInv st.counts :=
    attemptLoop_countsInv ts _ st (fun p _ => Nat.zero_le _) hloop
  rcases hpost with ⟨_, rfl⟩ | ⟨_, _, rfl⟩ | ⟨_, _, tF, mid, pId, _, rfl⟩
  · exact hst
  · exact hst
  · exact hst

/-- Witness for C5 on a concrete one-attempt order simulation. -/
theorem payments_c5_witness :
    ((simulateOrder listRng [("card", 1)] [("paid", 1), ("failed", 2)] 100
        ⟨30, 0, 1, 100⟩ (([0, 0, 0] : List ℚ), ([7] : List ℕ))).map
      (fun s => decide (countsInv s.counts))) = some true := by
  have hs : (simulateOrder listRng [("card", 1)] [("paid", 1), ("failed", 2)] 100
      ⟨30, 0, 1, 100⟩ (([0, 0, 0] : List ℚ), ([7] : List ℕ))).isSome = true := by
    with_unfolding_all decide
  obtain ⟨s, hEq⟩ := Option.isSome_iff_exists.mp hs
  have hc := payments_c5.2 _ listRng _ _ 100 _ _ s hEq
  rw [hEq]
  simp [hc]

/-- Row-status invariant of the attempt loop: while the order is unpaid
every emitted row is a failed row of amount zero; once paid, the rows are
a block of failed rows closed by a single paid row carrying the full
order total. -/
def rowsOk {G : Type} (o : OrderInfo) (pId fId : ℕ) (s : LoopState G) : Prop :=
  (s.paid = false → ∀ r ∈ s.rows, r.payment_status_id = fId ∧ r.amount_paid = 0) ∧
  (s.paid = true → ∃ pre r, s.rows = pre ++ [r] ∧ r.payment_status_id = pId ∧
      r.amount_paid = o.order_total ∧
      ∀ r' ∈ pre, r'.payment_status_id = fId ∧ r'.amount_paid = 0)

theorem attemptLoop_rowsOk {G : Type} {mt stT : List (String × ℕ)} {R : PyRng G}
    {o : OrderInfo} {pId fId : ℕ}
    (hp : lookupKey stT "paid" = some pId) (hf : lookupKey stT "failed" = some fId) :
    ∀ (ts : List ℤ) (s s' : LoopState G), rowsOk o pId fId s →
      attemptLoop mt stT R o ts s = some s' → rowsOk o pId fId s' := by
  intro ts
  induction ts with
  | nil =>
    intro s s' hOk h
    rw [attemptLoop] at h
    injection h with h
    rw [← h]
    exact hOk
  | cons t ts ih =>
    intro s s' hOk h
    rw [attemptLoop] at h
    by_cases hpaid : s.paid
    · rw [if_pos hpaid] at h
      injection h with h
      rw [← h]
      exact hOk
    · rw [if_neg hpaid] at h
      rw [Bool.not_eq_true] at hpaid
      cases hstep : attemptStep mt stT R o t s with
      | none => rw [hstep] at h; cases h
      | some res =>
        rw [hstep] at h
        rcases attemptStep_cases hstep with ⟨m, g1, _, hres⟩ | ⟨m, _, _, hc⟩
        · subst hres
          dsimp only at h
          injection h with h
          rw [← h]
          exact ⟨fun _ => hOk.1 hpaid, fun hcontra => hOk.2 hcontra⟩
        · rcases hc with ⟨_, g2, hres⟩ | ⟨g2, mid, pId', hmt, hpd, hres⟩ |
            ⟨g2, mid, fId', hmt, hfd, hres⟩
          · subst hres
            dsimp only at h
            refine ih ⟨g2, m, upd s.counts m, s.paid, s.attemptNo + 1, s.rows⟩ s'
              ⟨fun _ => hOk.1 hpaid, fun hcontra => hOk.2 hcontra⟩ h
          · subst hres
            dsimp only at h
            injection h with h
            rw [← h]
            have hpId : pId' = pId := by
              rw [hpd] at hp
              exact Option.some.inj hp
            refine ⟨fun hcontra => Bool.noConfusion hcontra, fun _ => ?_⟩
            exact ⟨s.rows, ⟨o.order_id, s.attemptNo + 1, t, o.order_total, mid, pId'⟩,
              rfl, hpId, rfl, hOk.1 hpaid⟩
          · subst hres
            dsimp only at h
            have hfId : fId' = fId := by
              rw [hfd] at hf
              exact Option.some.inj hf
            refine ih ⟨g2, m, upd s.counts m, s.paid, s.attemptNo + 1,
                s.rows ++ [⟨o.order_id, s.attemptNo + 1, t, 0, mid, fId'⟩]⟩ s'
              ⟨fun _ r hr => ?_, fun hcontra => absurd hcontra (by simp [hpaid])⟩ h
            rcases List.mem_append.mp hr with hr | hr
            · exact hOk.1 hpaid r hr
            · rcases List.mem_singleton.mp hr with rfl
              exact ⟨hfId, rfl⟩

theorem rows_concat_paid_spec {rows : List PaymentRow} {r : PaymentRow} {pId fId : ℕ}
    (hne : pId ≠ fId) (hall : ∀ x ∈ rows, x.payment_status_id = fId)
    (hr : r.payment_status_id = pId) :
    ((rows ++ [r]).filter (fun x => x.payment_status_id == pId)).length = 1 ∧
    (rows ++ [r]).getLast? = some r := by
  constructor
  · rw [List.filter_append]
    have h1 : rows.filter (fun x => x.payment_status_id == pId) = [] := by
      rw [List.filter_eq_nil_iff]
      intro a ha
      simp [hall a ha, Ne.symm hne]
    rw [h1]
    simp [hr]
  · exact List.getLast?_concat rows

/-- C1: every non-cancelled order's emitted row sequence holds exactly one
row with the paid status, and that row is the last one emitted. -/
theorem payments_c1 {G : Type} (R : PyRng G) (mt stT : List (String × ℕ))
    (fuel : ℕ) (o : OrderInfo) (g : G) (s : LoopState G) (pId fId : ℕ)
    (hp : lookupKey stT "paid" = some pId) (hf : lookupKey stT "failed" = some fId)
    (hne : pId ≠ fId) (hstat : o.order_status ≠ 5)
    (hrun : simulateOrder R mt stT fuel o g = some s) :
    ((s.rows.filter fun r => r.payment_status_id == pId).length = 1) ∧
    ∃ r, s.rows.getLast? = some r ∧ r.payment_status_id = pId := by
  obtain ⟨ts, m0, g3, st, hm0, hloop, hpost⟩ := simulateOrder_cases hrun
  have hOk : rowsOk o pId fId st :=
    attemptLoop_rowsOk hp hf ts ⟨g3, m0, fun _ => 0, false, 0, []⟩ st
      ⟨fun _ r hr => absurd hr (List.not_mem_nil r),
       fun hcontra => Bool.noConfusion hcontra⟩ hloop
  rcases hpost with ⟨hpaid, rfl⟩ | ⟨_, hstat5, _⟩ | ⟨hpaid, _, tF, mid, pId', hp', rfl⟩
  · obtain ⟨pre, r, hrows, hrp, _, hpre⟩ := hOk.2 hpaid
    rw [hrows]
    have hspec := rows_concat_paid_spec hne (fun x hx => (hpre x hx).1) hrp
    exact ⟨hspec.1, r, hspec.2, hrp⟩
  · exact absurd hstat5 hstat
  · have hpId : pId' = pId := by
      rw [hp'] at hp
      exact Option.some.inj hp
    have hall : ∀ x ∈ st.rows, x.payment_status_id = fId :=
      fun x hx => (hOk.1 hpaid x hx).1
    have hspec := rows_concat_paid_spec hne hall
      (show (⟨o.order_id, st.attemptNo + 1, tF, o.order_total, mid, pId'⟩ :
        PaymentRow).payment_status_id = pId from hpId)
    exact ⟨hspec.1, _, hspec.2, hpId⟩

/-- Witness for C1 on a concrete delivered-order simulation. -/
theorem payments_c1_witness :
    ((simulateOrder listRng [("card", 1)] [("paid", 1), ("failed", 2)] 100
        ⟨30, 0, 1, 100⟩ (([0, 0, 0] : List ℚ), ([7] : List ℕ))).map
      (fun s => (s.rows.filter fun r => r.payment_status_id == 1).length)) = some 1 := by
  have hs : (simulateOrder listRng [("card", 1)] [("paid", 1), ("failed", 2)] 100
      ⟨30, 0, 1, 100⟩ (([0, 0, 0] : List ℚ), ([7] : List ℕ))).isSome = true := by
    with_unfolding_all decide
  obtain ⟨s, hEq⟩ := Option.isSome_iff_exists.mp hs
  have hc := payments_c1 listRng [("card", 1)] [("paid", 1), ("failed", 2)] 100
    ⟨30, 0, 1, 100⟩ (([0, 0, 0] : List ℚ), ([7] : List ℕ)) s 1 2 (by decide) (by decide)
    (by decide) (by decide) hEq
  rw [hEq]
  simp [hc.1]

/-- C2 (amended): for a cancelled order every emitted row except possibly
the last is a failed row of amount zero; the last row, when present, is
either failed with amount zero or — when a success was drawn during the
natural attempts — a single paid row carrying the full total; no
forced-resolution row is appended, and the sequence may be empty (the
closed conjunct exhibits an empty run). -/
theorem payments_c2_amended :
    (∀ (G : Type) (R : PyRng G) (mt stT : List (String × ℕ)) (fuel : ℕ)
      (o : OrderInfo) (g : G) (s : LoopState G) (pId fId : ℕ),
      lookupKey stT "paid" = some pId → lookupKey stT "failed" = some fId →
      o.order_status = 5 → simulateOrder R mt stT fuel o g = some s →
      (∀ r ∈ s.rows.dropLast, r.payment_status_id = fId ∧ r.amount_paid = 0) ∧
      (∀ r, s.rows.getLast? = some r →
        (r.payment_status_id = fId ∧ r.amount_paid = 0) ∨
        (r.payment_status_id = pId ∧ r.amount_paid = o.order_total))) ∧
    ((simulateOrder listRng [("voucher", 9)] [("paid", 1), ("failed", 2)] 100
        ⟨11, 0, 5, 100⟩ (([0, 0, 0] : List ℚ), ([3] : List ℕ))).map LoopState.rows =
      some []) := by
  refine ⟨?_, by with_unfolding_all decide⟩
  intro G R mt stT fuel o g s pId fId hp hf hstat hrun
  obtain ⟨ts, m0, g3, st, hm0, hloop, hpost⟩ := simulateOrder_cases hrun
  have hOk : rowsOk o pId fId st :=
    attemptLoop_rowsOk hp hf ts ⟨g3, m0, fun _ => 0, false, 0, []⟩ st
      ⟨fun _ r hr => absurd hr (List.not_mem_nil r),
       fun hcontra => Bool.noConfusion hcontra⟩ hloop
  rcases hpost with ⟨hpaid, rfl⟩ | ⟨hpaid, _, rfl⟩ | ⟨_, hstat5, _⟩
  · obtain ⟨pre, r, hrows, hrp, hramt, hpre⟩ := hOk.2 hpaid
    rw [hrows]
    constructor
    · rw [List.dropLast_concat]
      exact hpre
    · intro r' hr'
      rw [List.getLast?_concat] at hr'
      rcases Option.some.inj hr' with rfl
      exact Or.inr ⟨hrp, hramt⟩
  · have hall := hOk.1 hpaid
    constructor
    · exact fun r hr => hall r ((List.dropLast_sublist _).subset hr)
    · exact fun r hr => Or.inl (hall r (List.mem_of_mem_getLast? hr))
  · exact absurd hstat hstat5

/-- Counterexample to C2 as stated: a cancelled order whose first natural
attempt draws a success emits a paid row with the full order total, not a
failed row of amount zero. -/
theorem payments_c2_counterexample :
    ((simulateOrder listRng [("card", 1)] [("paid", 1), ("failed", 2)] 100
        ⟨10, 0, 5, 100⟩ (([0, 0, 0] : List ℚ), ([7] : List ℕ))).map LoopState.rows) =
      some [⟨10, 1, 7, 100, 1, 1⟩] ∧
    ¬ (∀ r ∈ [(⟨10, 1, 7, 100, 1, 1⟩ : PaymentRow)],
        r.payment_status_id = 2 ∧ r.amount_paid = 0) :=
  ⟨by with_unfolding_all decide, by with_unfolding_all decide⟩

/-- Witness for C2 (amended) on the same cancelled-order run. -/
theorem payments_c2_amended_witness :
    ((simulateOrder listRng [("card", 1)] [("paid", 1), ("failed", 2)] 100
        ⟨10, 0, 5, 100⟩ (([0, 0, 0] : List ℚ), ([7] : List ℕ))).map
      (fun s => decide (∀ r ∈ s.rows.dropLast,
        r.payment_status_id = 2 ∧ r.amount_paid = 0))) = some true := by
  have hs : (simulateOrder listRng [("card", 1)] [("paid", 1), ("failed", 2)] 100
      ⟨10, 0, 5, 100⟩ (([0, 0, 0] : List ℚ), ([7] : List ℕ))).isSome = true := by
    with_unfolding_all decide
  obtain ⟨s, hEq⟩ := Option.isSome_iff_exists.mp hs
  have hc := (payments_c2_amended.1 _ listRng [("card", 1)] [("paid", 1), ("failed", 2)]
    100 ⟨10, 0, 5, 100⟩ (([0, 0, 0] : List ℚ), ([7] : List ℕ)) s 1 2 (by decide)
    (by decide) (by decide) hEq).1
  rw [hEq]
  simpa using hc

/-- Attempt numbers of the emitted rows are strictly increasing and
bounded by the attempt counter. -/
def numsOk {G : Type} (s : LoopState G) : Prop :=
  ((s.rows.map PaymentRow.attempt_no).Chain' (· < ·)) ∧
  ∀ r ∈ s.rows, r.attempt_no ≤ s.attemptNo

theorem numsOk_append {rows : List PaymentRow} {r : PaymentRow} {n : ℕ}
    (hch : (rows.map PaymentRow.attempt_no).Chain' (· < ·))
    (hub : ∀ x ∈ rows, x.attempt_no ≤ n) (hr : r.attempt_no = n + 1) :
    (((rows ++ [r]).map PaymentRow.attempt_no).Chain' (· < ·)) ∧
    ∀ x ∈ rows ++ [r], x.attempt_no ≤ n + 1 := by
  constructor
  · rw [List.map_append, List.chain'_append]
    refine ⟨hch, List.chain'_singleton _, ?_⟩
    intro x hx y hy
    simp only [List.map_cons, List.map_nil, List.head?_cons, Option.mem_def] at hy
    rcases Option.some.inj hy.symm with rfl
    have hx' : x ∈ rows.map PaymentRow.attempt_no := List.mem_of_mem_getLast? hx
    obtain ⟨a, ha, rfl⟩ := List.mem_map.mp hx'
    have hha := hub a ha
    omega
  · intro x hx
    rcases List.mem_append.mp hx with hx | hx
    · exact le_trans (hub x hx) (Nat.le_succ n)
    · rcases List.mem_singleton.mp hx with rfl
      omega

theorem attemptLoop_numsOk {G : Type} {mt stT : List (String × ℕ)} {R : PyRng G}
    {o : OrderInfo} :
    ∀ (ts : List ℤ) (s s' : LoopState G), numsOk s →
      attemptLoop mt stT R o ts s = some s' → numsOk s' := by
  intro ts
  induction ts with
  | nil =>
    intro s s' hOk h
    rw [attemptLoop] at h
    injection h with h
    rw [← h]
    exact hOk
  | cons t ts ih =>
    intro s s' hOk h
    rw [attemptLoop] at h
    by_cases hpaid : s.paid
    · rw [if_pos hpaid] at h
      injection h with h
      rw [← h]
      exact hOk
    · rw [if_neg hpaid] at h
      cases hstep : attemptStep mt stT R o t s with
      | none => rw [hstep] at h; cases h
      | some res =>
        rw [hstep] at h
        rcases attemptStep_cases hstep with ⟨m, g1, _, hres⟩ | ⟨m, _, _, hc⟩
        · subst hres
          dsimp only at h
          injection h with h
          rw [← h]
          exact hOk
        · rcases hc with ⟨_, g2, hres⟩ | ⟨g2, mid, pId', _, _, hres⟩ |
            ⟨g2, mid, fId', _, _, hres⟩
          · subst hres
            dsimp only at h
            refine ih ⟨g2, m, upd s.counts m, s.paid, s.attemptNo + 1, s.rows⟩ s'
              ⟨hOk.1, fun r hr => le_trans (hOk.2 r hr) (Nat.le_succ _)⟩ h
          · subst hres
            dsimp only at h
            injection h with h
            rw [← h]
            exact numsOk_append hOk.1 hOk.2 rfl
          · subst hres
            dsimp only at h
            refine ih ⟨g2, m, upd s.counts m, s.paid, s.attemptNo + 1,
                s.rows ++ [⟨o.order_id, s.attemptNo + 1, t, 0, mid, fId'⟩]⟩ s'
              (numsOk_append hOk.1 hOk.2 rfl) h

/-- Under a complete method-code table the emitted attempt numbers are
exactly `1..attempt_no`, and the current method is always configured. -/
def fullOk {G : Type} (s : LoopState G) : Prop :=
  s.rows.map PaymentRow.attempt_no = List.range' 1 s.attemptNo ∧
  s.current ∈ PAYMENT_METHOD_CONFIG.map Prod.fst

theorem range'_one_concat (n : ℕ) :
    List.range' 1 (n + 1) = List.range' 1 n ++ [n + 1] := by
  have h := @List.range'_concat 1 1 n
  simpa [Nat.add_comm] using h

theorem mProv_keys {G : Type} {s : LoopState G} {m : String}
    (hcur : s.current ∈ PAYMENT_METHOD_CONFIG.map Prod.fst) (hprov : mProv s m) :
    m ∈ PAYMENT_METHOD_CONFIG.map Prod.fst := by
  rcases hprov with rfl | hav
  · exact hcur
  · exact available_mem_keys hav

theorem attemptLoop_fullOk {G : Type} {mt stT : List (String × ℕ)} {R : PyRng G}
    {o : OrderInfo}
    (hmt : ∀ p ∈ PAYMENT_METHOD_CONFIG, (lookupKey mt p.1).isSome = true) :
    ∀ (ts : List ℤ) (s s' : LoopState G), fullOk s →
      attemptLoop mt stT R o ts s = some s' → fullOk s' := by
  intro ts
  induction ts with
  | nil =>
    intro s s' hOk h
    rw [attemptLoop] at h
    injection h with h
    rw [← h]
    exact hOk
  | cons t ts ih =>
    intro s s' hOk h
    rw [attemptLoop] at h
    by_cases hpaid : s.paid
    · rw [if_pos hpaid] at h
      injection h with h
      rw [← h]
      exact hOk
    · rw [if_neg hpaid] at h
      cases hstep : attemptStep mt stT R o t s with
      | none => rw [hstep] at h; cases h
      | some res =>
        rw [hstep] at h
        rcases attemptStep_cases hstep with ⟨m, g1, hprov, hres⟩ | ⟨m, hprov, _, hc⟩
        · subst hres
          dsimp only at h
          injection h with h
          rw [← h]
          exact ⟨hOk.1, mProv_keys hOk.2 hprov⟩
        · have hmkeys : m ∈ PAYMENT_METHOD_CONFIG.map Prod.fst :=
            mProv_keys hOk.2 hprov
          rcases hc with ⟨hnone, g2, hres⟩ | ⟨g2, mid, pId', _, _, hres⟩ |
            ⟨g2, mid, fId', _, _, hres⟩
          · obtain ⟨p, hp, hfst⟩ := List.mem_map.mp hmkeys
            have := hmt p hp
            rw [hfst, hnone] at this
            cases this
          · subst hres
            dsimp only at h
            injection h with h
            rw [← h]
            refine ⟨?_, hmkeys⟩
            rw [List.map_append, hOk.1, range'_one_concat]
            rfl
          · subst hres
            dsimp only at h
            refine ih _ s' ⟨?_, hmkeys⟩ h
            rw [List.map_append, hOk.1, range'_one_concat]
            rfl

/-- C4 (amended): the attempt numbers of the rows emitted for an order are
always strictly increasing, and they are exactly `1..m` (`m` the number of
emitted rows) when every configured method has an id in the method-code
table; an attempt skipped over a missing method id still consumes its
number, leaving a gap (see the counterexample). -/
theorem payments_c4_amended :
    (∀ (G : Type) (R : PyRng G) (mt stT : List (String × ℕ)) (fuel : ℕ)
      (o : OrderInfo) (g : G) (s : LoopState G),
      simulateOrder R mt stT fuel o g = some s →
      (s.rows.map PaymentRow.attempt_no).Chain' (· < ·)) ∧
    (∀ (G : Type) (R : PyRng G) (mt stT : List (String × ℕ)) (fuel : ℕ)
      (o : OrderInfo) (g : G) (s : LoopState G),
      (∀ p ∈ PAYMENT_METHOD_CONFIG, (lookupKey mt p.1).isSome = true) →
      simulateOrder R mt stT fuel o g = some s →
      s.rows.map PaymentRow.attempt_no = List.range' 1 s.rows.length) := by
  constructor
  · intro G R mt stT fuel o g s hrun
    obtain ⟨ts, m0, g3, st, hm0, hloop, hpost⟩ := simulateOrder_cases hrun
    have hOk : numsOk st :=
      attemptLoop_numsOk ts ⟨g3, m0, fun _ => 0, false, 0, []⟩ st
        ⟨List.chain'_nil, fun r hr => absurd hr (List.not_mem_nil r)⟩ hloop
    rcases hpost with ⟨_, rfl⟩ | ⟨_, _, rfl⟩ | ⟨_, _, tF, mid, pId, _, rfl⟩
    · exact hOk.1
    · exact hOk.1
    · exact (numsOk_append hOk.1 hOk.2 rfl).1
  · intro G R mt stT fuel o g s hmt hrun
    obtain ⟨ts, m0, g3, st, hm0, hloop, hpost⟩ := simulateOrder_cases hrun
    have hOk : fullOk st :=
      attemptLoop_fullOk hmt ts ⟨g3, m0, fun _ => 0, false, 0, []⟩ st
        ⟨by simp, hm0⟩ hloop
    have hlen : st.rows.length = st.attemptNo := by
      have hml : (st.rows.map PaymentRow.attempt_no).length =
          (List.range' 1 st.attemptNo).length := by rw [hOk.1]
      simpa using hml
    rcases hpost with ⟨_, rfl⟩ | ⟨_, _, rfl⟩ | ⟨_, _, tF, mid, pId, _, rfl⟩
    · rw [hlen]
      exact hOk.1
    · rw [hlen]
      exact hOk.1
    · show (st.rows ++ [_]).map PaymentRow.attempt_no =
        List.range' 1 (st.rows ++ [_]).length
      rw [List.map_append, hOk.1, List.length_append, hlen]
      simp only [List.length_cons, List.length_nil]
      rw [range'_one_concat]
      rfl

/-- Counterexample to C4 as stated: with only `paypal` mapped in the
method-code table, an order whose two natural attempts both use the
unmapped `card` method emits a single forced-resolution row numbered 3,
not `1..1`. -/
theorem payments_c4_counterexample :
    ((simulateOrder listRng [("paypal", 7)] [("paid", 1), ("failed", 2)] 100
        ⟨20, 0, 1, 100⟩ (([1/2, 0, 7/10, 1/10, 7/10] : List ℚ), ([1, 2] : List ℕ))).map
      (fun s => s.rows.map PaymentRow.attempt_no)) = some [3] ∧
    ¬ ([3] = List.range' 1 ([(3 : ℕ)] : List ℕ).length) :=
  ⟨by with_unfolding_all decide, by decide⟩

/-- Witness for C4 (amended) with a complete method table. -/
theorem payments_c4_amended_witness :
    ((simulateOrder listRng
        [("card", 1), ("paypal", 2), ("mbway", 3), ("bank_transfer", 4)]
        [("paid", 1), ("failed", 2)] 100
        ⟨40, 0, 1, 100⟩ (([0, 0, 0] : List ℚ), ([7] : List ℕ))).map
      (fun s => decide (s.rows.map PaymentRow.attempt_no =
        List.range' 1 s.rows.length))) = some true := by
  have hs : (simulateOrder listRng
      [("card", 1), ("paypal", 2), ("mbway", 3), ("bank_transfer", 4)]
      [("paid", 1), ("failed", 2)] 100
      ⟨40, 0, 1, 100⟩ (([0, 0, 0] : List ℚ), ([7] : List ℕ))).isSome = true := by
    with_unfolding_all decide
  obtain ⟨s, hEq⟩ := Option.isSome_iff_exists.mp hs
  have hc := payments_c4_amended.2 _ listRng
    [("card", 1), ("paypal", 2), ("mbway", 3), ("bank_transfer", 4)]
    [("paid", 1), ("failed", 2)] 100 ⟨40, 0, 1, 100⟩
    (([0, 0, 0] : List ℚ), ([7] : List ℕ)) s (by decide) hEq
  rw [hEq]
  simpa using hc

/-- C10: the success/failure draw precedes the method-id lookup: an
attempt whose method has no id in the method-code table consumes the draw
(the generator advances to `(R.random g).2`) but emits no row and leaves
`paid` untouched — whatever the draw was — and the loop continues with the
next timestamp; a non-cancelled order in this situation still ends with a
forced-resolution paid row (closed conjunct: the first attempt's success
draw is 1/10 < 62/100, i.e. a drawn success, yet the only emitted row is
the forced resolution, numbered 3). -/
theorem payments_c10 :
    (∀ (G : Type) (R : PyRng G) (mt stT : List (String × ℕ)) (o : OrderInfo)
      (t : ℤ) (s : LoopState G) (method : String) (g : G),
      lookupKey mt method = none →
      attemptFinish mt stT R o t s method g =
        some (.cont ⟨(R.random g).2, method, upd s.counts method, s.paid,
          s.attemptNo + 1, s.rows⟩)) ∧
    ((simulateOrder listRng [("paypal", 7)] [("paid", 1), ("failed", 2)] 100
        ⟨20, 0, 1, 100⟩ (([1/2, 0, 1/10, 1/10, 7/10] : List ℚ), ([1, 2] : List ℕ))).map
      LoopState.rows = some [⟨20, 3, 3, 100, 7, 1⟩]) := by
  refine ⟨?_, by with_unfolding_all decide⟩
  intro G R mt stT o t s method g hm
  unfold attemptFinish
  rw [hm]

/-- Witness for C10: the skip equation at a concrete state with an empty
method table. -/
theorem payments_c10_witness :
    attemptFinish [] [("paid", 1)] listRng ⟨1, 0, 1, 5⟩ 0
        ⟨(([], []) : List ℚ × List ℕ), "card", fun _ => 0, false, 0, []⟩ "card"
        (([], []) : List ℚ × List ℕ) =
      some (StepRes.cont ⟨(listRng.random ([], [])).2, "card",
        upd (fun _ => 0) "card", false, 1, []⟩) :=
  payments_c10.1 _ listRng [] [("paid", 1)] ⟨1, 0, 1, 5⟩ 0
    ⟨([], []), "card", fun _ => 0, false, 0, []⟩ "card" ([], []) rfl

/-! ## Lemmas on weighted sampling without replacement -/

theorem swapPop_length {α : Type} (l : List α) (i : ℕ) (d : α) :
    (swapPop l i d).length = l.length - 1 := by
  unfold swapPop
  simp

theorem set_last_dropLast {α : Type} : ∀ (l : List α) (v : α),
    (l.set (l.length - 1) v).dropLast = l.dropLast := by
  intro l
  induction l with
  | nil => intro v; rfl
  | cons x xs ih =>
    intro v
    cases xs with
    | nil => rfl
    | cons y ys =>
      have hx : (x :: y :: ys).length - 1 = (y :: ys).length - 1 + 1 := by
        simp
      rw [hx, List.set_cons_succ]
      have hne : (y :: ys).set ((y :: ys).length - 1) v ≠ [] := by
        intro hcon
        have hlen := congrArg List.length hcon
        simp at hlen
      rw [List.dropLast_cons_of_ne_nil hne, ih v,
        show (x :: y :: ys).dropLast = x :: (y :: ys).dropLast from
          List.dropLast_cons_of_ne_nil (by simp)]

theorem swapPop_perm {α : Type} : ∀ (l : List α) (i : ℕ) (d : α), i < l.length →
    (swapPop l i d).Perm (l.eraseIdx i) := by
  intro l
  induction l with
  | nil => intro i d hi; cases hi
  | cons x xs ih =>
    intro i d hi
    cases i with
    | zero =>
      cases hxs : xs with
      | nil =>
        subst hxs
        unfold swapPop
        rfl
      | cons y ys =>
        subst hxs
        unfold swapPop
        have h1 : (x :: y :: ys).length - 1 = (y :: ys).length - 1 + 1 := by simp
        have hb : (x :: y :: ys).getD ((x :: y :: ys).length - 1) d =
            (y :: ys).getD ((y :: ys).length - 1) d := by
          rw [h1, List.getD_cons_succ]
        rw [hb, List.set_cons_zero, List.getD_cons_zero, h1, List.set_cons_succ]
        have hne : (y :: ys).set ((y :: ys).length - 1) x ≠ [] := by
          intro hcon
          have hlen := congrArg List.length hcon
          simp at hlen
        rw [List.dropLast_cons_of_ne_nil hne, set_last_dropLast, List.eraseIdx_cons_zero]
        have hyne : (y :: ys) ≠ [] := by simp
        have hlast : (y :: ys).getD ((y :: ys).length - 1) d = (y :: ys).getLast hyne := by
          rw [List.getLast_eq_getElem]
          exact List.getD_eq_getElem _ d (by simp)
        rw [hlast]
        have hperm := (List.perm_append_singleton ((y :: ys).getLast hyne)
          (y :: ys).dropLast).symm
        have hback := List.dropLast_append_getLast hyne
        conv_rhs => rw [← hback]
        exact hperm
    | succ j =>
      have hj : j < xs.length := by
        simp at hi
        omega
      have hxsne : xs ≠ [] := List.ne_nil_of_length_pos (by omega)
      unfold swapPop
      have h1 : (x :: xs).length - 1 = xs.length - 1 + 1 := by
        cases xs with
        | nil => exact absurd rfl hxsne
        | cons y ys => simp
      have hb : (x :: xs).getD ((x :: xs).length - 1) d = xs.getD (xs.length - 1) d := by
        rw [h1, List.getD_cons_succ]
      rw [hb, List.set_cons_succ, List.getD_cons_succ, h1, List.set_cons_succ]
      have hne : (xs.set j (xs.getD (xs.length - 1) d)).set (xs.length - 1)
          (xs.getD j d) ≠ [] := by
        intro hcon
        have hlen := congrArg List.length hcon
        simp at hlen
        exact absurd hlen hxsne
      rw [List.dropLast_cons_of_ne_nil hne, List.eraseIdx_cons_succ]
      have hrec := ih j d hj
      unfold swapPop at hrec
      exact List.Perm.cons x hrec

theorem swapPop_subset {α : Type} {l : List α} {i : ℕ} {d : α} (hi : i < l.length) :
    ∀ x ∈ swapPop l i d, x ∈ l := by
  intro x hx
  have hx' : x ∈ l.eraseIdx i := ((swapPop_perm l i d hi).mem_iff).mp hx
  exact (List.eraseIdx_sublist l i).subset hx'

theorem swapPop_nodup {α : Type} {l : List α} {i : ℕ} {d : α}
    (hn : l.Nodup) (hi : i < l.length) : (swapPop l i d).Nodup :=
  ((swapPop_perm l i d hi).nodup_iff).mpr ((List.eraseIdx_sublist l i).nodup hn)

theorem getD_not_mem_swapPop {α : Type} {l : List α} {i : ℕ} {d : α}
    (hn : l.Nodup) (hi : i < l.length) : l.getD i d ∉ swapPop l i d := by
  intro hmem
  have hmem' : l.getD i d ∈ l.eraseIdx i :=
    ((swapPop_perm l i d hi).mem_iff).mp hmem
  rw [List.mem_eraseIdx_iff_getElem] at hmem'
  obtain ⟨j, hj, hne, hjx⟩ := hmem'
  rw [List.getD_eq_getElem l d hi] at hjx
  exact hne ((List.Nodup.getElem_inj_iff hn).mp hjx)

/-- Invariant of the sampling loop: the pool stays duplicate-free, the
chosen elements are distinct and disjoint from the pool, and the weight
list stays parallel to the pool. -/
def sampleInv {G : Type} (st : SampleState G) : Prop :=
  st.pool.Nodup ∧ st.chosen.Nodup ∧ (∀ x ∈ st.chosen, x ∉ st.pool) ∧
  st.weights.length = st.pool.length

theorem sampleLoop_inv {G : Type} {R : PyRng G} :
    ∀ (k : ℕ) (st st' : SampleState G), sampleInv st →
      sampleLoop R k st = .ok st' →
      sampleInv st' ∧
      (st'.chosen.length = st.chosen.length + k ∨
       (st'.weights ≠ [] ∧ sumQ st'.weights ≤ 0 ∧
        st'.chosen.length ≤ st.chosen.length + k)) := by
  intro k
  induction k with
  | zero =>
    intro st st' hinv h
    rw [sampleLoop] at h
    injection h with h
    rw [← h]
    exact ⟨hinv, Or.inl rfl⟩
  | succ k ih =>
    intro st st' hinv h
    rw [sampleLoop] at h
    cases hpc : pyChoices R st.g (List.range st.pool.length) st.weights with
    | error e => rw [hpc] at h; cases h
    | ok p =>
      obtain ⟨idx, g'⟩ := p
      rw [hpc] at h
      dsimp only at h
      have hidx : idx < st.pool.length := List.mem_range.mp (pyChoices_ok_mem hpc)
      have hgetD : st.pool.getD idx 0 ∈ st.pool := by
        rw [List.getD_eq_getElem st.pool 0 hidx]
        exact List.getElem_mem hidx
      have hinv1 : sampleInv ⟨g', swapPop st.pool idx 0, swapPop st.weights idx 0,
          st.chosen ++ [st.pool.getD idx 0]⟩ := by
        refine ⟨swapPop_nodup hinv.1 hidx, ?_, ?_, ?_⟩
        · rw [List.nodup_append]
          refine ⟨hinv.2.1, List.nodup_singleton _, ?_⟩
          intro a ha hb
          rcases List.mem_singleton.mp hb with rfl
          exact (hinv.2.2.1 _ ha) hgetD
        · intro x hx
          rcases List.mem_append.mp hx with hx | hx
          · intro hxp
            exact hinv.2.2.1 x hx (swapPop_subset hidx x hxp)
          · rcases List.mem_singleton.mp hx with rfl
            exact getD_not_mem_swapPop hinv.1 hidx
        · rw [swapPop_length, swapPop_length, hinv.2.2.2]
      by_cases hbr : ¬ (swapPop st.weights idx 0).isEmpty ∧
          sumQ (swapPop st.weights idx 0) ≤ 0
      · rw [if_pos hbr] at h
        injection h with h
        rw [← h]
        refine ⟨hinv1, Or.inr ⟨?_, hbr.2, ?_⟩⟩
        · intro hnil
          exact hbr.1 (by rw [List.isEmpty_iff]; exact hnil)
        · show (st.chosen ++ [st.pool.getD idx 0]).length ≤ st.chosen.length + (k + 1)
          simp
      · rw [if_neg hbr] at h
        obtain ⟨hinv', hlen⟩ := ih _ st' hinv1 h
        refine ⟨hinv', ?_⟩
        rcases hlen with hlen | ⟨hw, hsum, hlen⟩
        · left
          simp at hlen
          omega
        · right
          refine ⟨hw, hsum, ?_⟩
          simp at hlen
          omega

theorem sampleLoop_isOk {G : Type} {R : PyRng G} :
    ∀ (k : ℕ) (st : SampleState G),
      st.weights.length = st.pool.length → k ≤ st.pool.length →
      (0 < k → 0 < sumQ st.weights) →
      (sampleLoop R k st).isOk = true := by
  intro k
  induction k with
  | zero => intro st _ _ _; rfl
  | succ k ih =>
    intro st hlen hkle hpos
    have hsum : 0 < sumQ st.weights := hpos (Nat.succ_pos k)
    have hwne : st.weights ≠ [] := by
      intro hnil
      rw [hnil] at hsum
      simp [sumQ] at hsum
    rw [sampleLoop]
    have hok : (pyChoices R st.g (List.range st.pool.length) st.weights).isOk = true := by
      rw [pyChoices_isOk_iff (by simp [hlen])]
      exact ⟨hwne, hsum⟩
    cases hpc : pyChoices R st.g (List.range st.pool.length) st.weights with
    | error e =>
      rw [hpc] at hok
      simp [isOk_error] at hok
    | ok p =>
      obtain ⟨idx, g'⟩ := p
      dsimp only
      have hidx : idx < st.pool.length := List.mem_range.mp (pyChoices_ok_mem hpc)
      by_cases hbr : ¬ (swapPop st.weights idx 0).isEmpty ∧
          sumQ (swapPop st.weights idx 0) ≤ 0
      · rw [if_pos hbr]
        rfl
      · rw [if_neg hbr]
        refine ih _ ?_ ?_ ?_
        · rw [swapPop_length, swapPop_length, hlen]
        · rw [swapPop_length]
          omega
        · intro hk
          by_cases hwe : (swapPop st.weights idx 0).isEmpty
          · exfalso
            have hz : (swapPop st.weights idx 0).length = 0 := by
              rw [List.isEmpty_iff.mp hwe]
              rfl
            rw [swapPop_length, hlen] at hz
            omega
          · have hnb : ¬ sumQ (swapPop st.weights idx 0) ≤ 0 := by
              intro hle
              exact hbr ⟨by simpa using hwe, hle⟩
            linarith

/-- C8 (amended): on distinct candidates every successful draw returns a
duplicate-free list of at most `min(k, |candidates|)` elements, and it
falls short of that bound only when the loop broke early on a remaining
weight total of at most zero; however, when `k > 0`, the candidate pool
is non-empty and the total weight available at a draw is non-positive
(in particular an all-zero initial weight pool), the function raises the
distribution error instead of returning a shorter list — exactly the
failure condition characterised in the third conjunct. -/
theorem sample_unique_c8_amended :
    (∀ (G : Type) (R : PyRng G) (g : G) (cands : List ℕ) (wmap : List (ℕ × ℚ))
      (k : ℤ) (l : List ℕ), cands.Nodup →
      sample_unique_products_weighted R g cands wmap k = .ok l →
      l.Nodup ∧ l.length ≤ min k.toNat cands.length) ∧
    (∀ (G : Type) (R : PyRng G) (g : G) (cands : List ℕ) (wmap : List (ℕ × ℚ))
      (k : ℤ) (st : SampleState G), cands.Nodup →
      sampleRun R g cands wmap k = .ok st →
      st.chosen.length < min k.toNat cands.length →
      st.weights ≠ [] ∧ sumQ st.weights ≤ 0) ∧
    (∀ (G : Type) (R : PyRng G) (g : G) (cands : List ℕ) (wmap : List (ℕ × ℚ))
      (k : ℤ),
      ((sample_unique_products_weighted R g cands wmap k).isOk = false ↔
        (0 < k ∧ cands ≠ [] ∧ sumQ (cands.map (wgOf wmap)) ≤ 0))) := by
  have hinv0 : ∀ (G : Type) (g : G) (cands : List ℕ) (wmap : List (ℕ × ℚ)),
      cands.Nodup →
      sampleInv ⟨g, cands, cands.map (wgOf wmap), []⟩ := by
    intro G g cands wmap hnd
    exact ⟨hnd, List.nodup_nil, fun x hx => absurd hx (List.not_mem_nil x), by simp⟩
  refine ⟨?_, ?_, ?_⟩
  · intro G R g cands wmap k l hnd hok
    unfold sample_unique_products_weighted at hok
    by_cases hguard : k ≤ 0 ∨ cands.isEmpty
    · rw [if_pos hguard] at hok
      injection hok with hok
      rw [← hok]
      exact ⟨List.nodup_nil, by simp⟩
    · rw [if_neg hguard] at hok
      cases hsr : sampleRun R g cands wmap k with
      | error e => rw [hsr] at hok; cases hok
      | ok st =>
        rw [hsr] at hok
        dsimp only at hok
        injection hok with hok
        rw [← hok]
        unfold sampleRun at hsr
        obtain ⟨hinv', hlen⟩ := sampleLoop_inv _ _ st (hinv0 G g cands wmap hnd) hsr
        refine ⟨hinv'.2.1, ?_⟩
        rcases hlen with hlen | ⟨_, _, hlen⟩
        · simp at hlen
          omega
        · simp at hlen
          omega
  · intro G R g cands wmap k st hnd hsr hshort
    unfold sampleRun at hsr
    obtain ⟨hinv', hlen⟩ := sampleLoop_inv _ _ st (hinv0 G g cands wmap hnd) hsr
    rcases hlen with hlen | ⟨hw, hsum, _⟩
    · exfalso
      simp at hlen
      omega
    · exact ⟨hw, hsum⟩
  · intro G R g cands wmap k
    unfold sample_unique_products_weighted
    by_cases hguard : k ≤ 0 ∨ cands.isEmpty
    · rw [if_pos hguard]
      refine iff_of_false (by simp [isOk_ok]) ?_
      rintro ⟨hk, hc, _⟩
      rcases hguard with hguard | hguard
      · omega
      · exact hc (List.isEmpty_iff.mp hguard)
    · rw [if_neg hguard]
      push_neg at hguard
      have hk : 0 < k := by omega
      have hcne : cands ≠ [] := by
        intro hnil
        exact hguard.2 (by rw [hnil]; rfl)
      have hclen : 0 < cands.length := List.length_pos.mpr hcne
      by_cases hsum : 0 < sumQ (cands.map (wgOf wmap))
      · have hloopOk : (sampleRun R g cands wmap k).isOk = true := by
          unfold sampleRun
          refine sampleLoop_isOk _ _ (by simp) (by simp) (fun _ => hsum)
        cases hsr : sampleRun R g cands wmap k with
        | error e => rw [hsr] at hloopOk; simp [isOk_error] at hloopOk
        | ok st =>
          dsimp only
          refine iff_of_false (by simp [isOk_ok]) ?_
          rintro ⟨_, _, hle⟩
          linarith
      · have hM : 0 < min k.toNat cands.length := by
          omega
        have hnotok : (sampleRun R g cands wmap k).isOk = false := by
          unfold sampleRun
          cases hMe : min k.toNat cands.length with
          | zero => omega
          | succ f =>
            rw [sampleLoop]
            have hpcf : (pyChoices R g (List.range cands.length)
                (cands.map (wgOf wmap))).isOk = false := by
              rw [Bool.eq_false_iff, ne_eq,
                pyChoices_isOk_iff (by simp)]
              rintro ⟨_, hpos⟩
              linarith
            cases hpc : pyChoices R g (List.range cands.length)
                (cands.map (wgOf wmap)) with
            | error e => rfl
            | ok p => rw [hpc] at hpcf; simp [isOk_ok] at hpcf
        cases hsr : sampleRun R g cands wmap k with
        | error e =>
          dsimp only
          exact iff_of_true rfl ⟨hk, hcne, by linarith⟩
        | ok st => rw [hsr] at hnotok; simp [isOk_ok] at hnotok

/-- Counterexample to C8 as stated: a single candidate of weight zero with
`k = 1` makes the first draw raise the distribution error — the function
does not return a shorter (empty) sequence, so the zero-weight early stop
is an error on the first round. -/
theorem sample_unique_c8_counterexample :
    sample_unique_products_weighted listRng (([], []) : List ℚ × List ℕ) [1] [(1, 0)] 1 =
      .error "Total of weights must be greater than zero" := by
  with_unfolding_all rfl

/-- Witness for C8 (amended) on a successful two-element draw. -/
theorem sample_unique_c8_witness :
    ([5, 6] : List ℕ).Nodup ∧
    ([5, 6] : List ℕ).length ≤ min (2 : ℤ).toNat ([5, 6] : List ℕ).length :=
  sample_unique_c8_amended.1 _ listRng (([0, 0], []) : List ℚ × List ℕ) [5, 6] [] 2
    [5, 6] (by decide) (by with_unfolding_all rfl)
